import Mathlib

/-!
Verification development for the multivariable polynomial calculator
(`src/poly.h`, `src/poly.c`, `src/mono_array.c`).

Shallow embedding conventions:
* `poly_coeff_t` (C `long`) is modelled as `Int`; coefficient addition,
  negation and multiplication in the source are plain machine operations and
  are modelled by exact integer arithmetic.
* `poly_exp_t` (C `int`) carries exponents.  Every exponent reachable from
  the public API is non-negative (the parser rejects negative exponents and
  the algebra only ever adds exponents), so exponents are modelled as `Nat`;
  where the source adds two exponents the model adds the naturals exactly,
  with no bound check, mirroring the unchecked `m->exp + n->exp` in `MonoMul`.
* A C `Poly` is either a constant (`arr == NULL`, modelled `Poly.coeff c`) or
  a non-empty monomial array (modelled `Poly.terms` of a monomial list).
  `MList` is the embedded monomial array; `Mono.mk p e` is `struct Mono`.
* Memory management (`PolyDestroy`, `free`, `malloc`) has no observable
  effect on values and is erased; `MonoClone`/`PolyClone` are kept because
  the source computes with them.
* `assert` statements are erased in the executable model; the assertion
  conditions are stated and proved separately as theorems about canonical
  inputs (claim C6).
-/

namespace PolyCalc

mutual

/-- C `struct Poly`: either a constant coefficient (`arr == NULL`) or a
non-empty array of monomials. -/
inductive Poly : Type where
  | coeff : Int → Poly
  | terms : MList → Poly

/-- The monomial arrays of the C implementation, as a bespoke list type so
that all structural recursions below are accepted literally. -/
inductive MList : Type where
  | mnil : MList
  | mcons : Mono → MList → MList

/-- C `struct Mono`: a coefficient polynomial together with an exponent. -/
inductive Mono : Type where
  | mk : Poly → Nat → Mono

end

mutual

/-- Structural size of a polynomial (proof measure only, not from source). -/
def psize : Poly → Nat
  | .coeff _ => 1
  | .terms ms => 1 + lsize ms

/-- Structural size of a monomial list (proof measure only). -/
def lsize : MList → Nat
  | .mnil => 1
  | .mcons m ms => 1 + msize m + lsize ms

/-- Structural size of a monomial (proof measure only). -/
def msize : Mono → Nat
  | .mk p _ => 1 + psize p

end

/-- Coefficient polynomial of a monomial (`m->p`). -/
def Mono.p : Mono → Poly
  | .mk p _ => p

/-- C `MonoGetExp`: the exponent of a monomial. -/
def MonoGetExp : Mono → Nat
  | .mk _ e => e

/-- C `PolyFromCoeff`: constant polynomial from a coefficient. -/
def PolyFromCoeff (c : Int) : Poly := .coeff c

/-- C `PolyFromSizeAndArray`: wraps a monomial array as a polynomial.  The
source asserts `arr != NULL && size != 0`; the assertion is erased here and
its condition is analysed in claim C6. -/
def PolyFromSizeAndArray (ms : MList) : Poly := .terms ms

/-- C `PolyZero`: the zero polynomial. -/
def PolyZero : Poly := PolyFromCoeff 0

/-- C `PolyIsCoeff`: is the polynomial a constant (`arr == NULL`)? -/
def PolyIsCoeff : Poly → Bool
  | .coeff _ => true
  | .terms _ => false

/-- C `PolyIsZero`: is the polynomial the zero constant? -/
def PolyIsZero : Poly → Bool
  | .coeff c => c == 0
  | .terms _ => false

/-- C `MonoFromPoly`: monomial from a coefficient polynomial and an exponent.
The source asserts `n == 0 || !PolyIsZero(p)`; the assertion is erased here
and its condition is analysed in claim C6. -/
def MonoFromPoly (p : Poly) (n : Nat) : Mono := .mk p n

mutual

/-- C `PolyClone`: deep copy of a polynomial. -/
def PolyClone : Poly → Poly
  | .coeff c => PolyFromCoeff c
  | .terms ms => PolyFromSizeAndArray (cloneL ms)

/-- The copy loop of `PolyClone` over the monomial array. -/
def cloneL : MList → MList
  | .mnil => .mnil
  | .mcons m ms => .mcons (MonoClone m) (cloneL ms)

/-- C `MonoClone`: deep copy of a monomial. -/
def MonoClone : Mono → Mono
  | .mk p e => .mk (PolyClone p) e

end

mutual

theorem polyClone_eq : ∀ p : Poly, PolyClone p = p
  | .coeff _ => rfl
  | .terms ms => by
      simp [PolyClone, PolyFromSizeAndArray, cloneL_eq ms]

theorem cloneL_eq : ∀ ms : MList, cloneL ms = ms
  | .mnil => rfl
  | .mcons m ms => by
      simp [cloneL, monoClone_eq m, cloneL_eq ms]

theorem monoClone_eq : ∀ m : Mono, MonoClone m = m
  | .mk p e => by simp [MonoClone, polyClone_eq p]

end

@[simp] theorem psize_coeff (c : Int) : psize (.coeff c) = 1 := by simp [psize]

@[simp] theorem psize_terms (ms : MList) : psize (.terms ms) = 1 + lsize ms := by
  simp [psize]

@[simp] theorem lsize_mnil : lsize .mnil = 1 := by simp [lsize]

@[simp] theorem lsize_mcons (m : Mono) (ms : MList) :
    lsize (.mcons m ms) = 1 + msize m + lsize ms := by simp [lsize]

@[simp] theorem msize_mk (p : Poly) (e : Nat) : msize (.mk p e) = 1 + psize p := by
  simp [msize]

@[simp] theorem mono_p_mk (p : Poly) (e : Nat) : Mono.p (.mk p e) = p := rfl

@[simp] theorem monoGetExp_mk (p : Poly) (e : Nat) : MonoGetExp (.mk p e) = e := rfl

theorem msize_eq (m : Mono) : msize m = 1 + psize (Mono.p m) := by
  cases m; simp

theorem psize_pos (p : Poly) : 0 < psize p := by cases p <;> simp

theorem lsize_pos (ms : MList) : 0 < lsize ms := by cases ms <;> simp [msize_eq]

/-- C `TrimAndInterpretMonoArr` (mono_array.c): interprets the used prefix of
a monomial array as a polynomial.  The model receives the used prefix as a
list; the `used`/`reserved` arguments of the source only govern `realloc`
and are value-irrelevant. -/
def TrimAndInterpretMonoArr : MList → Poly
  | .mnil => PolyZero
  | .mcons m .mnil =>
      if PolyIsZero (Mono.p m) then PolyZero
      else if MonoGetExp m == 0 && PolyIsCoeff (Mono.p m) then Mono.p m
      else PolyFromSizeAndArray (.mcons m .mnil)
  | ms => PolyFromSizeAndArray ms

/-- C `PolyAddTwoCoeffs`: both arguments are constants (guaranteed by the
caller `PolyAdd`; other shapes are unreachable). -/
def PolyAddTwoCoeffs (p q : Poly) : Poly :=
  match p, q with
  | .coeff a, .coeff b => PolyFromCoeff (a + b)
  | _, _ => PolyZero

/-- C `PolyAddCoeffIfPDoesntHaveConst`: prepend the constant `q` as a new
exponent-0 monomial in front of the (cloned) monomials of `p`. -/
def PolyAddCoeffIfPDoesntHaveConst (p q : Poly) : Poly :=
  match p with
  | .terms ms => PolyFromSizeAndArray (.mcons (MonoFromPoly q 0) (cloneL ms))
  | _ => PolyZero

mutual

/-- C `PolyAdd`: dispatch on constant/non-constant shapes. -/
def PolyAdd (p q : Poly) : Poly :=
  if PolyIsCoeff p && PolyIsCoeff q then PolyAddTwoCoeffs p q
  else if PolyIsCoeff p || PolyIsCoeff q then PolyAddCoeffToNonCoeff p q
  else PolyAddTwoNonCoeffs p q
termination_by 4 * (psize p + psize q) + 3
decreasing_by
  all_goals simp [PolyIsCoeff, msize_eq]
  all_goals first
    | omega
    | (split <;> omega)

/-- C `PolyAddCoeffToNonCoeff`: the first `if` swaps the arguments so that
`q` is the constant.  The both-constant shape is unreachable from `PolyAdd`
(in the source it would recurse forever) and is mapped to a junk value. -/
def PolyAddCoeffToNonCoeff (p q : Poly) : Poly :=
  match p, q with
  | .coeff _, .coeff _ => PolyZero
  | .coeff a, .terms ns => PolyAddCoeffToNonCoeff (.terms ns) (.coeff a)
  | .terms ms, q =>
      if PolyIsZero q then PolyClone (.terms ms)
      else
        match ms with
        | .mcons m0 tl =>
            if MonoGetExp m0 == 0 then
              PolyAddCoeffIfPhasConst (.terms (.mcons m0 tl)) q
            else PolyAddCoeffIfPDoesntHaveConst (.terms (.mcons m0 tl)) q
        | .mnil => PolyZero
termination_by 4 * (psize p + psize q) + 1 + (if PolyIsCoeff p then 1 else 0)
decreasing_by
  all_goals simp [PolyIsCoeff, msize_eq]
  all_goals first
    | omega
    | (split <;> omega)

/-- C `PolyAddCoeffIfPhasConst`: add the constant `q` into the coefficient
of the leading exponent-0 monomial, dropping that monomial if the sum is
the zero constant. -/
def PolyAddCoeffIfPhasConst (p q : Poly) : Poly :=
  match p with
  | .terms (.mcons m0 tl) =>
      let new_poly_for_x0 := PolyAdd (Mono.p m0) q
      if PolyIsZero new_poly_for_x0 then PolyFromSizeAndArray (cloneL tl)
      else PolyFromSizeAndArray (.mcons (MonoFromPoly new_poly_for_x0 0) (cloneL tl))
  | _ => PolyZero
termination_by 4 * (psize p + psize q)
decreasing_by
  all_goals simp [PolyIsCoeff, msize_eq]
  all_goals first
    | omega
    | (split <;> omega)

/-- C `PolyAddTwoNonCoeffs`: sorted merge of the two monomial arrays followed
by `TrimAndInterpretMonoArr`. -/
def PolyAddTwoNonCoeffs (p q : Poly) : Poly :=
  match p, q with
  | .terms ms, .terms ns => TrimAndInterpretMonoArr (mergeAdd ms ns)
  | _, _ => PolyZero
termination_by 4 * (psize p + psize q)
decreasing_by
  all_goals simp [PolyIsCoeff, msize_eq]
  all_goals first
    | omega
    | (split <;> omega)

/-- The merge loop of C `PolyAddTwoNonCoeffs` together with `CopyWhatsLeft`:
adds monomials with equal exponents (dropping the sum if its coefficient
cancels to zero) and copies the lower-exponent monomial otherwise. -/
def mergeAdd (ms ns : MList) : MList :=
  match ms, ns with
  | .mnil, ns => cloneL ns
  | .mcons m ms1, .mnil => cloneL (.mcons m ms1)
  | .mcons m ms1, .mcons n ns1 =>
      if MonoGetExp m == MonoGetExp n then
        let new_mono := MonoAdd m n
        if PolyIsZero (Mono.p new_mono) then mergeAdd ms1 ns1
        else .mcons new_mono (mergeAdd ms1 ns1)
      else if MonoGetExp m > MonoGetExp n then
        .mcons (MonoClone n) (mergeAdd (.mcons m ms1) ns1)
      else
        .mcons (MonoClone m) (mergeAdd ms1 (.mcons n ns1))
termination_by 4 * (lsize ms + lsize ns)
decreasing_by
  all_goals simp [PolyIsCoeff, msize_eq]
  all_goals first
    | omega
    | (split <;> omega)

/-- C `MonoAdd`: adds the coefficients of two monomials with equal exponent,
keeping the exponent of the first. -/
def MonoAdd (m n : Mono) : Mono :=
  .mk (PolyAdd (Mono.p m) (Mono.p n)) (MonoGetExp m)
termination_by 4 * (msize m + msize n)
decreasing_by
  all_goals simp [PolyIsCoeff, msize_eq]
  all_goals first
    | omega
    | (split <;> omega)

end

/-- Number of monomials in an array (`p->size`). -/
def mlength : MList → Nat
  | .mnil => 0
  | .mcons _ ms => 1 + mlength ms

/-- The first `count` monomials of an array (`monos[0..count)`). -/
def mtake : Nat → MList → MList
  | 0, _ => .mnil
  | _ + 1, .mnil => .mnil
  | n + 1, .mcons m ms => .mcons m (mtake n ms)

/-- List concatenation (used to flatten the two nested loops of `PolyMul`). -/
def mappend : MList → MList → MList
  | .mnil, ns => ns
  | .mcons m ms, ns => .mcons m (mappend ms ns)

/-- Insertion of a monomial into an exponent-sorted array, before any later
entry with the same exponent. -/
def sortInsert (m : Mono) : MList → MList
  | .mnil => .mcons m .mnil
  | .mcons n ns =>
      if MonoGetExp m ≤ MonoGetExp n then .mcons m (.mcons n ns)
      else .mcons n (sortInsert m ns)

/-- C `MonoSort` (mono_array.c): `qsort` with `Comparator`, which compares
exponents only and returns 0 on ties, so `qsort` may emit any permutation of
an equal-exponent run.  The model fixes the stable such permutation (original
order within each run); every claim proved below is insensitive to the order
within runs, because runs are combined with the commutative coefficient
addition of `MonoAdd`. -/
def MonoSort : MList → MList
  | .mnil => .mnil
  | .mcons m ms => sortInsert m (MonoSort ms)

/-- The accumulation loop of C `PolyAddMonos` (poly.c, lines 275-293):
`cur` is `copy_array[new_index]`; a monomial with the same exponent is merged
into `cur` by `MonoAdd`; on a new exponent, `cur` survives unless its
coefficient is the zero constant, and the new monomial replaces it. -/
def addMonosLoop : Mono → MList → MList
  | cur, .mnil => .mcons cur .mnil
  | cur, .mcons m ms =>
      if MonoGetExp cur == MonoGetExp m then addMonosLoop (MonoAdd cur m) ms
      else if PolyIsZero (Mono.p cur) then addMonosLoop (MonoClone m) ms
      else .mcons cur (addMonosLoop (MonoClone m) ms)

/-- C `PolyAddMonos`: sort the first `count` monomials by exponent, merge
equal-exponent runs, and interpret the surviving prefix. -/
def PolyAddMonos (count : Nat) (monos : MList) : Poly :=
  if count == 0 then PolyZero
  else
    match MonoSort (mtake count monos) with
    | .mnil => PolyZero
    | .mcons m0 rest => TrimAndInterpretMonoArr (addMonosLoop m0 rest)

mutual

/-- C `PolyNeg`: negate a constant, or negate every coefficient. -/
def PolyNeg : Poly → Poly
  | .coeff c => PolyFromCoeff (-1 * c)
  | .terms ms => PolyFromSizeAndArray (negL ms)

/-- The loop of C `PolyNeg` over the monomial array. -/
def negL : MList → MList
  | .mnil => .mnil
  | .mcons m ms => .mcons (MonoNeg m) (negL ms)

/-- C `MonoNeg`: negation of a monomial via `MonoFromPoly`. -/
def MonoNeg : Mono → Mono
  | .mk p e => MonoFromPoly (PolyNeg p) e

end

/-- C `PolySub`: `p + (-q)`. -/
def PolySub (p q : Poly) : Poly := PolyAdd p (PolyNeg q)

mutual

/-- C `PolyMul`: dispatch on constant/non-constant shapes; the non-constant
times non-constant case builds the full cross product and normalizes it
through `PolyAddMonos`. -/
def PolyMul (p q : Poly) : Poly :=
  match p, q with
  | .coeff a, .coeff b => PolyFromCoeff (b * a)
  | .coeff a, .terms ns => PolyMulCoeffAndNonCoeff (.coeff a) (.terms ns)
  | .terms ms, .coeff b => PolyMulCoeffAndNonCoeff (.terms ms) (.coeff b)
  | .terms ms, .terms ns => PolyAddMonos (mlength (crossAll ms ns)) (crossAll ms ns)
termination_by 4 * (psize p + psize q) + 3
decreasing_by
  all_goals simp [PolyIsCoeff, msize_eq]
  all_goals first
    | omega
    | (split <;> omega)

/-- C `PolyMulCoeffAndNonCoeff`: the first `if` swaps the arguments so that
`q` is the constant; zero times anything short-circuits to zero.  The
both-constant shape is unreachable from `PolyMul` (in the source it would
recurse forever) and is mapped to a junk value. -/
def PolyMulCoeffAndNonCoeff (p q : Poly) : Poly :=
  match p, q with
  | .coeff _, .coeff _ => PolyZero
  | .coeff a, .terms ns => PolyMulCoeffAndNonCoeff (.terms ns) (.coeff a)
  | .terms ms, q =>
      if PolyIsZero q then PolyZero
      else PolyAddMonos (mlength (mulCoeffL ms q)) (mulCoeffL ms q)
termination_by 4 * (psize p + psize q) + 1 + (if PolyIsCoeff p then 1 else 0)
decreasing_by
  all_goals simp [PolyIsCoeff, msize_eq]
  all_goals first
    | omega
    | (split <;> omega)

/-- The loop of C `PolyMulCoeffAndNonCoeff`: multiply every monomial by the
constant `q` via `MonoMulCoeff`. -/
def mulCoeffL : MList → Poly → MList
  | .mnil, _ => .mnil
  | .mcons m ms, q => .mcons (MonoMulCoeff m q) (mulCoeffL ms q)
termination_by ms q => 4 * (lsize ms + psize q)
decreasing_by
  all_goals simp [PolyIsCoeff, msize_eq]
  all_goals first
    | omega
    | (split <;> omega)

/-- The two nested loops of C `PolyMul` (outer over `p`, inner over `q`),
flattened in the same order as `new_array` is filled. -/
def crossAll : MList → MList → MList
  | .mnil, _ => .mnil
  | .mcons m ms, ns => mappend (crossOne m ns) (crossAll ms ns)
termination_by ms ns => 4 * (lsize ms + lsize ns) + 1
decreasing_by
  all_goals simp [PolyIsCoeff, msize_eq]
  all_goals first
    | omega
    | (split <;> omega)

/-- The inner loop of C `PolyMul`: all products of `m` with monomials of the
second array. -/
def crossOne : Mono → MList → MList
  | _, .mnil => .mnil
  | m, .mcons n ns => .mcons (MonoMul m n) (crossOne m ns)
termination_by m ns => 4 * (msize m + lsize ns)
decreasing_by
  all_goals simp [PolyIsCoeff, msize_eq]
  all_goals first
    | omega
    | (split <;> omega)

/-- C `MonoMul` (poly.h): multiply coefficients recursively and add the
exponents; the exponent sum `m->exp + n->exp` carries no bound check. -/
def MonoMul (m n : Mono) : Mono :=
  .mk (PolyMul (Mono.p m) (Mono.p n)) (MonoGetExp m + MonoGetExp n)
termination_by 4 * (msize m + msize n)
decreasing_by
  all_goals simp [PolyIsCoeff, msize_eq]
  all_goals first
    | omega
    | (split <;> omega)

/-- C `MonoMulCoeff` (poly.h): multiply a monomial's coefficient by a
constant polynomial, keeping the exponent. -/
def MonoMulCoeff (m : Mono) (c : Poly) : Mono :=
  .mk (PolyMul (Mono.p m) c) (MonoGetExp m)
termination_by 4 * (msize m + psize c)
decreasing_by
  all_goals simp [PolyIsCoeff, msize_eq]
  all_goals first
    | omega
    | (split <;> omega)

end

/-- Exponent of the last monomial of an array (`arr[size - 1].exp`); the
empty shape is unreachable in the source. -/
def lastExp : MList → Nat
  | .mnil => 0
  | .mcons m .mnil => MonoGetExp m
  | .mcons _ (.mcons n ns) => lastExp (.mcons n ns)

mutual

/-- C `PolyDegBy`: degree with respect to the variable `var_idx` nesting
levels down; `-1` for the zero polynomial, `0` for a nonzero constant, the
last (largest) exponent at depth 0, else the maximum over the coefficients
one level down. -/
def PolyDegBy : Poly → Nat → Int
  | .coeff c, _ => if c == 0 then -1 else 0
  | .terms ms, 0 => (lastExp ms : Int)
  | .terms ms, v + 1 => degByL ms v

/-- The maximum-accumulating loop of C `PolyDegBy` (`maxi` starts at -1). -/
def degByL : MList → Nat → Int
  | .mnil, _ => -1
  | .mcons m ms, v => max (PolyDegBy (Mono.p m) v) (degByL ms v)

end

mutual

/-- C `PolyDeg`: total degree, `-1` for the zero polynomial. -/
def PolyDeg : Poly → Int
  | .coeff c => if c == 0 then -1 else 0
  | .terms ms => degL ms

/-- The maximum-accumulating loop of C `PolyDeg` (`maxi` starts at
`SMALL_VALUE`, which is -1). -/
def degL : MList → Int
  | .mnil => -1
  | .mcons m ms => max (MonoDeg m) (degL ms)

/-- C `MonoDeg` (poly.h): exponent plus degree of the coefficient. -/
def MonoDeg : Mono → Int
  | .mk p e => (e : Int) + PolyDeg p

end

mutual

/-- C `PolyIsEq`: structural equality of polynomials. -/
def PolyIsEq : Poly → Poly → Bool
  | .coeff a, .coeff b => a == b
  | .coeff _, .terms _ => false
  | .terms _, .coeff _ => false
  | .terms ms, .terms ns => eqL ms ns
termination_by p q => psize p + psize q
decreasing_by all_goals simp [msize_eq]; all_goals omega

/-- The size check and comparison loop of C `PolyIsEq`. -/
def eqL : MList → MList → Bool
  | .mnil, .mnil => true
  | .mnil, .mcons _ _ => false
  | .mcons _ _, .mnil => false
  | .mcons m ms, .mcons n ns => MonoIsEq m n && eqL ms ns
termination_by ms ns => lsize ms + lsize ns
decreasing_by all_goals simp [msize_eq]; all_goals omega

/-- C `MonoIsEq` (poly.h): equal exponents and equal coefficients. -/
def MonoIsEq : Mono → Mono → Bool
  | .mk p e, .mk r f => e == f && PolyIsEq p r
termination_by m n => msize m + msize n
decreasing_by all_goals simp [msize_eq]; all_goals omega

end

/-- C `PowerOf` (poly.h): fast binary exponentiation on coefficients. -/
def PowerOf (x : Int) (n : Nat) : Int :=
  if n == 0 then 1
  else if n == 1 then x
  else if n % 2 == 1 then x * PowerOf (x * x) ((n - 1) / 2)
  else PowerOf (x * x) (n / 2)
termination_by n
decreasing_by all_goals simp_all; all_goals omega

/-- C `MonoAt` (poly.h): the value of a monomial at `x` for the outermost
variable, `m.p * x^exp`. -/
def MonoAt (m : Mono) (x : Int) : Poly :=
  PolyMul (Mono.p m) (PolyFromCoeff (PowerOf x (MonoGetExp m)))

/-- The accumulation loop of C `PolyAt`: repeatedly add each monomial's
value to the running result. -/
def atLoop : MList → Int → Poly → Poly
  | .mnil, _, result => result
  | .mcons m ms, x, result => atLoop ms x (PolyAdd result (MonoAt m x))

/-- C `PolyAt`: evaluate the outermost variable at `x`. -/
def PolyAt (p : Poly) (x : Int) : Poly :=
  match p with
  | .coeff _ => PolyClone p
  | .terms ms => atLoop ms x PolyZero

/-- C `PolyOwnMonos`: `none` models a NULL `monos` pointer; the `free` of
the consumed array is value-irrelevant. -/
def PolyOwnMonos (count : Nat) (monos : Option MList) : Poly :=
  match monos with
  | none => PolyZero
  | some l => PolyAddMonos count l

/-- C `PolyCloneMonos`: `none` models a NULL `monos` pointer; otherwise the
first `count` monomials are deep-copied and summed. -/
def PolyCloneMonos (count : Nat) (monos : Option MList) : Poly :=
  match monos with
  | none => PolyZero
  | some l => PolyAddMonos count (cloneL (mtake count l))

/-- C `PolyPower` (poly.c): fast binary exponentiation of a polynomial. -/
def PolyPower (p : Poly) (exp : Nat) : Poly :=
  if exp == 0 then PolyFromCoeff 1
  else if exp == 1 then PolyClone p
  else if exp % 2 == 1 then PolyMul p (PolyPower (PolyMul p p) ((exp - 1) / 2))
  else PolyPower (PolyMul p p) (exp / 2)
termination_by exp
decreasing_by all_goals simp_all; all_goals omega

mutual

/-- C `PolyComposeHelper`: substitute `q[i]` for the variable at nesting
depth `var_id + i` throughout `p`. -/
def PolyComposeHelper : Poly → Nat → Nat → List Poly → Poly
  | .coeff c, _, _, _ => PolyClone (.coeff c)
  | .terms ms, k, var_id, q => composeL ms k var_id q PolyZero
termination_by p k v q => psize p
decreasing_by all_goals simp [msize_eq]; all_goals omega

/-- The accumulation loop of C `PolyComposeHelper`: starts from the zero
polynomial and adds every monomial's composition. -/
def composeL : MList → Nat → Nat → List Poly → Poly → Poly
  | .mnil, _, _, _, result => result
  | .mcons m ms, k, var_id, q, result =>
      composeL ms k var_id q (PolyAdd result (MonoComposeHelper m k var_id q))
termination_by ms k v q r => lsize ms
decreasing_by all_goals simp [msize_eq]; all_goals omega

/-- C `MonoComposeHelper`: compose the coefficient one level deeper, then
multiply by `q[var_id]` raised to the exponent when `var_id < k`, or return
zero (times the exponent > 0 power of the zero substitute) when
`var_id ≥ k`. -/
def MonoComposeHelper : Mono → Nat → Nat → List Poly → Poly
  | m, k, var_id, q =>
      let coeff := PolyComposeHelper (Mono.p m) k (var_id + 1) q
      if MonoGetExp m == 0 then coeff
      else if var_id < k then
        PolyMul coeff (PolyPower (q.getD var_id PolyZero) (MonoGetExp m))
      else PolyZero
termination_by m k v q => msize m
decreasing_by all_goals simp [msize_eq]; all_goals omega

end

/-- C `PolyCompose`: composition starts at nesting depth 0. -/
def PolyCompose (p : Poly) (k : Nat) (q : List Poly) : Poly :=
  PolyComposeHelper p k 0 q

/-- Does a single-element array consist of one exponent-0 monomial with a
constant coefficient (the collapse/flatten shape of spec section 4.2)? -/
def isSingleConstExp0 : MList → Bool
  | .mcons m .mnil => MonoGetExp m == 0 && PolyIsCoeff (Mono.p m)
  | _ => false

mutual

/-- Canonical form (spec section 3): a constant, or a non-empty monomial
array, sorted strictly ascending by exponent, every coefficient canonical
and not the zero constant, and not of the collapse shape (a single
exponent-0 monomial with constant coefficient), which the normalizer
flattens.  Numeric range bounds are not part of the structural predicate. -/
def canonP : Poly → Bool
  | .coeff _ => true
  | .terms .mnil => false
  | .terms (.mcons m ms) =>
      canonTail (-1) (.mcons m ms) && !(isSingleConstExp0 (.mcons m ms))

/-- Canonical array segment with an exclusive integer lower bound on the
exponents: all exponents strictly above `e` and strictly ascending, all
monomials canonical (the bound -1 describes a whole canonical array). -/
def canonTail : Int → MList → Bool
  | _, .mnil => true
  | e, .mcons m ms =>
      decide (e < (MonoGetExp m : Int)) && canonM m &&
        canonTail ((MonoGetExp m : Int)) ms

/-- Canonical monomial: canonical coefficient that is not the zero
constant. -/
def canonM : Mono → Bool
  | .mk p _ => canonP p && !(PolyIsZero p)

end

mutual

/-- Checker for the property of claim C1: does some `Terms` list reachable
inside the polynomial contain a monomial whose coefficient-polynomial is the
zero constant? -/
def hasZeroConstCoeffMono : Poly → Bool
  | .coeff _ => false
  | .terms ms => hasZeroConstCoeffMonoL ms
termination_by p => psize p
decreasing_by all_goals simp [msize_eq]; all_goals omega

/-- List part of `hasZeroConstCoeffMono`. -/
def hasZeroConstCoeffMonoL : MList → Bool
  | .mnil => false
  | .mcons m ms =>
      PolyIsZero (Mono.p m) || hasZeroConstCoeffMono (Mono.p m) ||
        hasZeroConstCoeffMonoL ms
termination_by ms => lsize ms
decreasing_by all_goals simp [msize_eq]; all_goals omega

end

mutual

/-- Checker for the exponent bound of spec section 3: every exponent in the
value is at most 2^31 - 1. -/
def allExpsWithinBound : Poly → Bool
  | .coeff _ => true
  | .terms ms => allExpsWithinBoundL ms
termination_by p => psize p
decreasing_by all_goals simp [msize_eq]; all_goals omega

/-- List part of `allExpsWithinBound`. -/
def allExpsWithinBoundL : MList → Bool
  | .mnil => true
  | .mcons m ms =>
      decide (MonoGetExp m ≤ 2 ^ 31 - 1) && allExpsWithinBound (Mono.p m) &&
        allExpsWithinBoundL ms
termination_by ms => lsize ms
decreasing_by all_goals simp [msize_eq]; all_goals omega

end

mutual

/-- Number of variable nesting levels actually present in a value: the
variable `x_i` can occur in `p` only when `i < numVarsP p`.  For a
non-constant polynomial, claim C4's "actual nesting depth" is
`numVarsP p - 1`, so "`var_idx` strictly greater than the nesting depth"
is `numVarsP p ≤ var_idx`. -/
def numVarsP : Poly → Nat
  | .coeff _ => 0
  | .terms ms => 1 + numVarsL ms
termination_by p => psize p
decreasing_by all_goals simp [msize_eq]; all_goals omega

/-- List part of `numVarsP`: deepest nesting among the coefficients. -/
def numVarsL : MList → Nat
  | .mnil => 0
  | .mcons m ms => max (numVarsP (Mono.p m)) (numVarsL ms)
termination_by ms => lsize ms
decreasing_by all_goals simp [msize_eq]; all_goals omega

end

/-- Claim C7: ingesting the term list [(Constant(3), 2), (Constant(0), 5),
(Constant(-3), 2)] through `PolyAddMonos` with count 3 returns exactly the
canonical value Constant(0): the two exponent-2 terms cancel and the
zero-coefficient exponent-5 term is dropped. -/
theorem c7_ingest_concrete_scenario :
    PolyAddMonos 3 (.mcons (.mk (.coeff 3) 2) (.mcons (.mk (.coeff 0) 5)
      (.mcons (.mk (.coeff (-3)) 2) .mnil))) = PolyFromCoeff 0 := by
  simp [PolyAddMonos, mtake, MonoSort, sortInsert, MonoGetExp, addMonosLoop,
    MonoAdd, PolyAdd, PolyIsCoeff, PolyAddTwoCoeffs, PolyFromCoeff, PolyIsZero,
    Mono.p, MonoClone, PolyClone, TrimAndInterpretMonoArr, PolyZero]

/-- Claim C1 is refuted by the code: `PolyAddMonos` with count 3 on the
array [(Constant 1, 0), (Constant 3, 1), (Constant -3, 1)] returns
Terms[(Constant 1, 0), (Constant 0, 1)].  The merge loop checks the
accumulated monomial for a zero coefficient only when a *later* different
exponent arrives, so a cancellation at the highest exponent leaks a
zero-constant-coefficient monomial into the result. -/
theorem c1_addMonos_keeps_trailing_zero_term :
    PolyAddMonos 3 (.mcons (.mk (.coeff 1) 0) (.mcons (.mk (.coeff 3) 1)
      (.mcons (.mk (.coeff (-3)) 1) .mnil))) =
      .terms (.mcons (.mk (.coeff 1) 0) (.mcons (.mk (.coeff 0) 1) .mnil)) ∧
    hasZeroConstCoeffMono (PolyAddMonos 3 (.mcons (.mk (.coeff 1) 0)
      (.mcons (.mk (.coeff 3) 1) (.mcons (.mk (.coeff (-3)) 1) .mnil)))) =
      true := by
  constructor
  all_goals
    simp [PolyAddMonos, mtake, MonoSort, sortInsert, MonoGetExp, addMonosLoop,
      MonoAdd, PolyAdd, PolyIsCoeff, PolyAddTwoCoeffs, PolyFromCoeff,
      PolyIsZero, Mono.p, MonoClone, PolyClone, TrimAndInterpretMonoArr,
      PolyZero, PolyFromSizeAndArray, hasZeroConstCoeffMono,
      hasZeroConstCoeffMonoL]

/-- Claim C5, as stated, is false at a concrete input: the canonical
polynomial x0^(2^30) has all exponents within the bound 2^31 - 1, yet
`PolyMul` of it with itself returns the monomial x0^(2^31): the exponent sum
2^30 + 2^30 is not checked against the bound and no construction error
occurs — the out-of-range exponent is carried silently into the result. -/
theorem c5_mul_exponent_overflow_unchecked :
    canonP (.terms (.mcons (.mk (.coeff 1) (2 ^ 30)) .mnil)) = true ∧
    allExpsWithinBound (.terms (.mcons (.mk (.coeff 1) (2 ^ 30)) .mnil)) = true ∧
    PolyMul (.terms (.mcons (.mk (.coeff 1) (2 ^ 30)) .mnil))
        (.terms (.mcons (.mk (.coeff 1) (2 ^ 30)) .mnil)) =
      .terms (.mcons (.mk (.coeff 1) (2 ^ 31)) .mnil) ∧
    allExpsWithinBound
        (PolyMul (.terms (.mcons (.mk (.coeff 1) (2 ^ 30)) .mnil))
          (.terms (.mcons (.mk (.coeff 1) (2 ^ 30)) .mnil))) = false := by
  refine ⟨by decide, ?_, ?_, ?_⟩
  all_goals
    simp [PolyMul, crossAll, crossOne, MonoMul, Mono.p, MonoGetExp, mappend,
      mlength, PolyAddMonos, mtake, MonoSort, sortInsert, addMonosLoop,
      TrimAndInterpretMonoArr, PolyIsZero, PolyIsCoeff, PolyFromSizeAndArray,
      PolyFromCoeff, PolyZero, MonoClone, PolyClone, cloneL,
      allExpsWithinBound, allExpsWithinBoundL]

/-- Claim C5 (amended): in `MonoMul` — and hence for every monomial pair in
the non-constant times non-constant case of `PolyMul` — the product
exponent is computed as the plain unchecked sum of the two exponents, and a
sum beyond the bound 2^31 - 1 is carried silently into the `PolyMul` result
instead of being a construction error. -/
theorem c5_amended_exponent_sum_unchecked :
    (∀ m n : Mono, MonoGetExp (MonoMul m n) = MonoGetExp m + MonoGetExp n) ∧
    allExpsWithinBound
        (PolyMul (.terms (.mcons (.mk (.coeff 1) (2 ^ 30)) .mnil))
          (.terms (.mcons (.mk (.coeff 1) (2 ^ 30)) .mnil))) = false := by
  constructor
  · intro m n
    simp [MonoMul, MonoGetExp]
  · simp [PolyMul, crossAll, crossOne, MonoMul, Mono.p, MonoGetExp, mappend,
      mlength, PolyAddMonos, mtake, MonoSort, sortInsert, addMonosLoop,
      TrimAndInterpretMonoArr, PolyIsZero, PolyIsCoeff, PolyFromSizeAndArray,
      PolyFromCoeff, PolyZero, MonoClone, PolyClone, cloneL,
      allExpsWithinBound, allExpsWithinBoundL]

/-- Claim C8: both `PolyOwnMonos` and `PolyCloneMonos` return the zero
constant whenever the count is 0 or the monomial array is NULL. -/
theorem c8_own_clone_degenerate (count : Nat) (monos : Option MList)
    (h : count = 0 ∨ monos = none) :
    PolyOwnMonos count monos = PolyFromCoeff 0 ∧
    PolyCloneMonos count monos = PolyFromCoeff 0 := by
  rcases h with h | h
  · subst h
    cases monos with
    | none => exact ⟨rfl, rfl⟩
    | some l =>
        constructor
        all_goals simp [PolyOwnMonos, PolyCloneMonos, PolyAddMonos, PolyZero,
          PolyFromCoeff]
  · subst h
    exact ⟨rfl, rfl⟩

/-- Witness for claim C8: count 0 together with a non-null one-element
array. -/
theorem c8_witness :
    PolyOwnMonos 0 (some (.mcons (.mk (.coeff 2) 1) .mnil)) = PolyFromCoeff 0 ∧
    PolyCloneMonos 0 (some (.mcons (.mk (.coeff 2) 1) .mnil)) =
      PolyFromCoeff 0 :=
  c8_own_clone_degenerate 0 (some (.mcons (.mk (.coeff 2) 1) .mnil))
    (Or.inl rfl)

/-- Claim C4, as stated, is false at a concrete input: 5 x0^2 is canonical,
non-constant and nonzero, the variable index 1 is strictly greater than its
actual nesting depth 0 (x1 does not occur in it), yet `PolyDegBy` returns 0,
not -1: the recursion bottoms out at the nonzero constant coefficient 5,
which reports degree 0. -/
theorem c4_degBy_absent_variable_counterexample :
    canonP (.terms (.mcons (.mk (.coeff 5) 2) .mnil)) = true ∧
    numVarsP (.terms (.mcons (.mk (.coeff 5) 2) .mnil)) ≤ 1 ∧
    PolyDegBy (.terms (.mcons (.mk (.coeff 5) 2) .mnil)) 1 ≠ -1 := by
  refine ⟨by decide, ?_, ?_⟩
  · simp [numVarsP, numVarsL, Mono.p]
  · simp [PolyDegBy, degByL, Mono.p]

mutual

theorem polyIsEq_refl : ∀ p : Poly, PolyIsEq p p = true
  | .coeff a => by simp [PolyIsEq]
  | .terms ms => by simp [PolyIsEq, eqL_refl ms]

theorem eqL_refl : ∀ ms : MList, eqL ms ms = true
  | .mnil => by simp [eqL]
  | .mcons m ms => by simp [eqL, monoIsEq_refl m, eqL_refl ms]

theorem monoIsEq_refl : ∀ m : Mono, MonoIsEq m m = true
  | .mk p e => by simp [MonoIsEq, polyIsEq_refl p]

end

/-- Claim C9: for every canonical polynomial, the deep copy round-trips
through `PolyIsEq`, and in the value model the clone is the argument itself
(the source clone never mutates its borrowed argument). -/
theorem c9_clone_roundtrip (p : Poly) (h : canonP p = true) :
    PolyIsEq (PolyClone p) p = true ∧ PolyClone p = p := by
  constructor
  · rw [polyClone_eq]
    exact polyIsEq_refl p
  · exact polyClone_eq p

/-- Witness for claim C9 at the canonical polynomial 2 x0. -/
theorem c9_witness :
    PolyIsEq (PolyClone (.terms (.mcons (.mk (.coeff 2) 1) .mnil)))
        (.terms (.mcons (.mk (.coeff 2) 1) .mnil)) = true ∧
    PolyClone (.terms (.mcons (.mk (.coeff 2) 1) .mnil)) =
      .terms (.mcons (.mk (.coeff 2) 1) .mnil) :=
  c9_clone_roundtrip (.terms (.mcons (.mk (.coeff 2) 1) .mnil)) (by decide)

/-- Are all monomials of the array canonical? -/
def allCanonM : MList → Bool
  | .mnil => true
  | .mcons m ms => canonM m && allCanonM ms

theorem canonTail_allCanonM :
    ∀ (e : Int) (ms : MList), canonTail e ms = true → allCanonM ms = true
  | _, .mnil, _ => by simp [allCanonM]
  | e, .mcons m ms, h => by
      simp [canonTail] at h
      simp [allCanonM, h.1.2, canonTail_allCanonM (MonoGetExp m) ms h.2]

theorem canonP_terms_allCanonM (ms : MList) (h : canonP (.terms ms) = true) :
    allCanonM ms = true := by
  cases ms with
  | mnil => simp [canonP] at h
  | mcons m tl =>
      simp [canonP, canonTail] at h
      simp [allCanonM, h.1.1.2, canonTail_allCanonM (MonoGetExp m) tl h.1.2]

@[simp] theorem monoNeg_exp (m : Mono) :
    MonoGetExp (MonoNeg m) = MonoGetExp m := by
  cases m with
  | mk p e => simp [MonoNeg, MonoFromPoly]

@[simp] theorem monoNeg_p (m : Mono) :
    Mono.p (MonoNeg m) = PolyNeg (Mono.p m) := by
  cases m with
  | mk p e => simp [MonoNeg, MonoFromPoly]

mutual

theorem addNeg_poly : ∀ p : Poly, canonP p = true →
    PolyAdd p (PolyNeg p) = PolyFromCoeff 0
  | .coeff c, _ => by
      simp [PolyNeg, PolyAdd, PolyIsCoeff, PolyAddTwoCoeffs, PolyFromCoeff]
  | .terms ms, h => by
      have hall := canonP_terms_allCanonM ms h
      simp [PolyNeg, PolyFromSizeAndArray, PolyAdd, PolyIsCoeff,
        PolyAddTwoNonCoeffs, addNeg_list ms hall, TrimAndInterpretMonoArr,
        PolyZero, PolyFromCoeff]
termination_by p => psize p
decreasing_by all_goals simp [msize_eq]; all_goals omega

theorem addNeg_list : ∀ ms : MList, allCanonM ms = true →
    mergeAdd ms (negL ms) = .mnil
  | .mnil, _ => by simp [negL, mergeAdd, cloneL]
  | .mcons m tl, h => by
      simp [allCanonM] at h
      have hm : canonP (Mono.p m) = true := by
        cases m with
        | mk p e =>
            simp [canonM] at h
            exact h.1.1
      simp [negL, mergeAdd, MonoAdd, addNeg_poly (Mono.p m) hm, PolyIsZero,
        PolyFromCoeff, addNeg_list tl h.2]
termination_by ms => lsize ms
decreasing_by all_goals simp [msize_eq]; all_goals omega

end

/-- Claim C3: for every canonical polynomial `p`,
`PolyAdd p (PolyNeg p)` returns exactly the zero constant: every exponent
tie cancels, cancelled terms are dropped, and the empty survivor list
collapses to the zero constant. -/
theorem c3_add_neg_cancels (p : Poly) (h : canonP p = true) :
    PolyAdd p (PolyNeg p) = PolyFromCoeff 0 :=
  addNeg_poly p h

/-- Witness for claim C3 at the canonical polynomial 1 + 2 x0. -/
theorem c3_witness :
    PolyAdd (.terms (.mcons (.mk (.coeff 1) 0) (.mcons (.mk (.coeff 2) 1) .mnil)))
        (PolyNeg (.terms (.mcons (.mk (.coeff 1) 0)
          (.mcons (.mk (.coeff 2) 1) .mnil)))) = PolyFromCoeff 0 :=
  c3_add_neg_cancels
    (.terms (.mcons (.mk (.coeff 1) 0) (.mcons (.mk (.coeff 2) 1) .mnil)))
    (by decide)

mutual

theorem degByAbsent_poly : ∀ (p : Poly) (v : Nat), canonP p = true →
    PolyIsZero p = false → numVarsP p ≤ v → PolyDegBy p v = 0
  | .coeff c, v, _, hz, _ => by
      simp [PolyIsZero] at hz
      simp [PolyDegBy, hz]
  | .terms ms, v, h, _, hnv => by
      have hne : ms ≠ .mnil := by
        intro hc
        subst hc
        simp [canonP] at h
      have hall := canonP_terms_allCanonM ms h
      have hv1 : 1 + numVarsL ms ≤ v := by
        simpa [numVarsP] using hnv
      cases v with
      | zero => omega
      | succ v0 =>
          have := degByAbsent_list ms v0 hall (by omega) hne
          simp [PolyDegBy, this]

theorem degByAbsent_list : ∀ (ms : MList) (v : Nat), allCanonM ms = true →
    numVarsL ms ≤ v → ms ≠ .mnil → degByL ms v = 0
  | .mcons m tl, v, h, hnv, _ => by
      simp [allCanonM] at h
      have hm : canonP (Mono.p m) = true ∧ PolyIsZero (Mono.p m) = false := by
        cases m with
        | mk p e =>
            simp [canonM] at h
            exact ⟨h.1.1, by simpa using h.1.2⟩
      have hnv1 : numVarsP (Mono.p m) ≤ v ∧ numVarsL tl ≤ v := by
        simp [numVarsL] at hnv
        omega
      have hhead := degByAbsent_poly (Mono.p m) v hm.1 hm.2 hnv1.1
      cases tl with
      | mnil => simp [degByL, hhead]
      | mcons n tl2 =>
          have htail := degByAbsent_list (.mcons n tl2) v h.2
            hnv1.2 (by intro hc; cases hc)
          simp [degByL, hhead, htail]

end

/-- Claim C4 (amended): for every canonical non-constant (hence nonzero)
polynomial and every variable index strictly greater than its actual nesting
depth (`numVarsP p ≤ var_idx`), `PolyDegBy` returns 0 — not -1: the
recursion bottoms out at nonzero constant coefficients, each contributing
degree 0, and never errors. -/
theorem c4_amended_degBy_absent_is_zero (ms : MList) (var_idx : Nat)
    (h : canonP (.terms ms) = true)
    (hv : numVarsP (.terms ms) ≤ var_idx) :
    PolyDegBy (.terms ms) var_idx = 0 :=
  degByAbsent_poly (.terms ms) var_idx h rfl hv

/-- Witness for the amended claim C4 at 5 x0^2 with variable index 1. -/
theorem c4_amended_witness :
    PolyDegBy (.terms (.mcons (.mk (.coeff 5) 2) .mnil)) 1 = 0 :=
  c4_amended_degBy_absent_is_zero (.mcons (.mk (.coeff 5) 2) .mnil) 1
    (by decide) (by simp [numVarsP, numVarsL, Mono.p])

@[simp] theorem polyIsZero_coeff (c : Int) : PolyIsZero (.coeff c) = (c == 0) := rfl

@[simp] theorem polyIsZero_terms (ms : MList) : PolyIsZero (.terms ms) = false := rfl

theorem polyIsZero_eq_true {p : Poly} (h : PolyIsZero p = true) : p = .coeff 0 := by
  cases p with
  | coeff c =>
      simp [PolyIsZero] at h
      simp [h]
  | terms ms => simp [PolyIsZero] at h

@[simp] theorem canonM_mk (p : Poly) (e : Nat) :
    canonM (.mk p e) = (canonP p && !PolyIsZero p) := by simp [canonM]

@[simp] theorem canonP_coeff (c : Int) : canonP (.coeff c) = true := by simp [canonP]

theorem canonTail_anti {e1 e2 : Int} {ms : MList} (hle : e2 ≤ e1)
    (h : canonTail e1 ms = true) : canonTail e2 ms = true := by
  cases ms with
  | mnil => simp [canonTail]
  | mcons m tl =>
      simp only [canonTail, Bool.and_eq_true, decide_eq_true_eq] at h ⊢
      obtain ⟨⟨h1, h2⟩, h3⟩ := h
      exact ⟨⟨by omega, h2⟩, h3⟩

theorem canonTail_notSingle {e : Int} {ms : MList} (he : 0 ≤ e)
    (h : canonTail e ms = true) : isSingleConstExp0 ms = false := by
  cases ms with
  | mnil => simp [isSingleConstExp0]
  | mcons m tl =>
      cases tl with
      | mnil =>
          simp [canonTail] at h
          simp [isSingleConstExp0]
          intro hexp
          omega
      | mcons n tl2 => simp [isSingleConstExp0]

theorem trim_canon {l : MList} (h : canonTail (-1) l = true) :
    canonP (TrimAndInterpretMonoArr l) = true := by
  cases l with
  | mnil => simp [TrimAndInterpretMonoArr, PolyZero, PolyFromCoeff]
  | mcons m tl =>
      cases tl with
      | mnil =>
          cases m with
          | mk p e =>
              simp only [canonTail, Bool.and_eq_true, decide_eq_true_eq,
                canonM_mk, Bool.not_eq_true', monoGetExp_mk, mono_p_mk] at h
              obtain ⟨⟨he, hp, hz⟩, -⟩ := h
              simp [TrimAndInterpretMonoArr, Mono.p, hz]
              split
              · next hf => exact hp
              · next hf =>
                  simp [PolyFromSizeAndArray, canonP, canonTail, hp, hz,
                    isSingleConstExp0, Mono.p]
                  refine ⟨by omega, ?_⟩
                  by_cases h0 : e = 0
                  · subst h0
                    simp at hf
                    simp [hf]
                  · left
                    exact h0
      | mcons n tl2 =>
          simp [TrimAndInterpretMonoArr, PolyFromSizeAndArray, canonP, h,
            isSingleConstExp0]

theorem polyAdd_cc (a b : Int) : PolyAdd (.coeff a) (.coeff b) = .coeff (a + b) := by
  simp [PolyAdd, PolyIsCoeff, PolyAddTwoCoeffs, PolyFromCoeff]

theorem polyAdd_tc (ms : MList) (c : Int) :
    PolyAdd (.terms ms) (.coeff c) =
      PolyAddCoeffToNonCoeff (.terms ms) (.coeff c) := by
  simp [PolyAdd, PolyIsCoeff]

theorem polyAdd_ct (ms : MList) (c : Int) :
    PolyAdd (.coeff c) (.terms ms) =
      PolyAddCoeffToNonCoeff (.terms ms) (.coeff c) := by
  simp [PolyAdd, PolyIsCoeff]
  rw [PolyAddCoeffToNonCoeff]

theorem polyAdd_tt (ms ns : MList) :
    PolyAdd (.terms ms) (.terms ns) =
      TrimAndInterpretMonoArr (mergeAdd ms ns) := by
  simp [PolyAdd, PolyIsCoeff, PolyAddTwoNonCoeffs]

theorem addCTN_zero (ms : MList) :
    PolyAddCoeffToNonCoeff (.terms ms) (.coeff 0) = .terms ms := by
  rw [PolyAddCoeffToNonCoeff.eq_def]
  simp [PolyIsZero, PolyClone, PolyFromSizeAndArray, cloneL_eq]

theorem addCTN_phc (m0 : Mono) (tl : MList) (c : Int) (hc : ¬c = 0)
    (h0 : MonoGetExp m0 = 0) :
    PolyAddCoeffToNonCoeff (.terms (.mcons m0 tl)) (.coeff c) =
      (if PolyIsZero (PolyAdd (Mono.p m0) (.coeff c)) = true
        then .terms (cloneL tl)
        else .terms (.mcons (.mk (PolyAdd (Mono.p m0) (.coeff c)) 0) (cloneL tl))) := by
  rw [PolyAddCoeffToNonCoeff.eq_def]
  simp [PolyIsZero, hc, h0, PolyAddCoeffIfPhasConst, PolyFromSizeAndArray,
    MonoFromPoly]

theorem addCTN_pdhc (m0 : Mono) (tl : MList) (c : Int) (hc : ¬c = 0)
    (h0 : ¬MonoGetExp m0 = 0) :
    PolyAddCoeffToNonCoeff (.terms (.mcons m0 tl)) (.coeff c) =
      .terms (.mcons (.mk (.coeff c) 0) (cloneL (.mcons m0 tl))) := by
  rw [PolyAddCoeffToNonCoeff.eq_def]
  simp [PolyIsZero, hc, h0, PolyAddCoeffIfPDoesntHaveConst,
    PolyFromSizeAndArray, MonoFromPoly]

theorem canonM_parts {m : Mono} (h : canonM m = true) :
    canonP (Mono.p m) = true ∧ PolyIsZero (Mono.p m) = false := by
  cases m with
  | mk p e =>
      simp [canonM] at h
      exact ⟨h.1, by simpa using h.2⟩

theorem canonM_build {m : Mono} (h1 : canonP (Mono.p m) = true)
    (h2 : PolyIsZero (Mono.p m) = false) : canonM m = true := by
  cases m with
  | mk p e => simp_all [canonM]

theorem canonTail_cons_parts {e : Int} {m : Mono} {tl : MList}
    (h : canonTail e (.mcons m tl) = true) :
    e < (MonoGetExp m : Int) ∧ canonM m = true ∧
      canonTail ((MonoGetExp m : Int)) tl = true := by
  simp only [canonTail, Bool.and_eq_true, decide_eq_true_eq] at h
  exact ⟨h.1.1, h.1.2, h.2⟩

theorem canonTail_cons_build {e : Int} {m : Mono} {tl : MList}
    (h1 : e < (MonoGetExp m : Int)) (h2 : canonM m = true)
    (h3 : canonTail ((MonoGetExp m : Int)) tl = true) :
    canonTail e (.mcons m tl) = true := by
  simp only [canonTail, Bool.and_eq_true, decide_eq_true_eq]
  exact ⟨⟨h1, h2⟩, h3⟩

theorem canonP_cons_parts {m0 : Mono} {tl : MList}
    (h : canonP (.terms (.mcons m0 tl)) = true) :
    canonM m0 = true ∧ canonTail ((MonoGetExp m0 : Int)) tl = true ∧
      isSingleConstExp0 (.mcons m0 tl) = false := by
  simp only [canonP, Bool.and_eq_true, Bool.not_eq_true'] at h
  have hparts := canonTail_cons_parts h.1
  exact ⟨hparts.2.1, hparts.2.2, h.2⟩

theorem canonP_cons_build {m0 : Mono} {tl : MList}
    (h1 : canonM m0 = true) (h2 : canonTail ((MonoGetExp m0 : Int)) tl = true)
    (h3 : isSingleConstExp0 (.mcons m0 tl) = false) :
    canonP (.terms (.mcons m0 tl)) = true := by
  simp only [canonP, Bool.and_eq_true, Bool.not_eq_true']
  exact ⟨canonTail_cons_build (by omega) h1 h2, h3⟩

theorem canonP_terms_canonTail {ms : MList} (h : canonP (.terms ms) = true) :
    canonTail (-1) ms = true := by
  cases ms with
  | mnil => simp [canonTail]
  | mcons m tl =>
      have hp := canonP_cons_parts h
      exact canonTail_cons_build (by omega) hp.1 hp.2.1

@[simp] theorem mergeAdd_nil_left (ns : MList) :
    mergeAdd .mnil ns = ns := by
  rw [mergeAdd]
  exact cloneL_eq ns

@[simp] theorem mergeAdd_nil_right (m : Mono) (ms1 : MList) :
    mergeAdd (.mcons m ms1) .mnil = .mcons m ms1 := by
  rw [mergeAdd]
  exact cloneL_eq (.mcons m ms1)

theorem mergeAdd_cons_cons (m n : Mono) (ms1 ns1 : MList) :
    mergeAdd (.mcons m ms1) (.mcons n ns1) =
      if MonoGetExp m = MonoGetExp n then
        (if PolyIsZero (PolyAdd (Mono.p m) (Mono.p n)) = true
          then mergeAdd ms1 ns1
          else .mcons (MonoAdd m n) (mergeAdd ms1 ns1))
      else if MonoGetExp m > MonoGetExp n then
        .mcons n (mergeAdd (.mcons m ms1) ns1)
      else .mcons m (mergeAdd ms1 (.mcons n ns1)) := by
  rw [mergeAdd]
  simp only [MonoAdd, monoClone_eq, beq_iff_eq]
  split
  · next h =>
      simp only [h, if_pos rfl]
      split <;> simp_all [MonoAdd, Mono.p]
  · next h =>
      simp only [if_neg h]

@[simp] theorem monoAdd_exp (m n : Mono) :
    MonoGetExp (MonoAdd m n) = MonoGetExp m := by
  rw [MonoAdd]
  simp

@[simp] theorem monoAdd_p (m n : Mono) :
    Mono.p (MonoAdd m n) = PolyAdd (Mono.p m) (Mono.p n) := by
  rw [MonoAdd]
  simp

mutual

theorem canon_add : ∀ p q : Poly, canonP p = true → canonP q = true →
    canonP (PolyAdd p q) = true
  | .coeff a, .coeff b, _, _ => by
      rw [polyAdd_cc]
      simp
  | .terms ms, .coeff c, hp, _ => by
      rw [polyAdd_tc]
      obtain ⟨rs, hrs, hcan⟩ := canon_addCTN ms c hp
      rw [hrs]
      exact hcan
  | .coeff c, .terms ns, _, hq => by
      rw [polyAdd_ct]
      obtain ⟨rs, hrs, hcan⟩ := canon_addCTN ns c hq
      rw [hrs]
      exact hcan
  | .terms ms, .terms ns, hp, hq => by
      rw [polyAdd_tt]
      exact trim_canon
        (canon_merge (-1) ms ns (canonP_terms_canonTail hp)
          (canonP_terms_canonTail hq))
termination_by p q => psize p + psize q
decreasing_by all_goals simp [msize_eq]; all_goals omega

theorem canon_addCTN : ∀ (ms : MList) (c : Int), canonP (.terms ms) = true →
    ∃ rs, PolyAddCoeffToNonCoeff (.terms ms) (.coeff c) = .terms rs ∧
      canonP (.terms rs) = true
  | .mnil, c, hp => by simp [canonP] at hp
  | .mcons (.mk (.coeff a) e0) tl, c, hp => by
      by_cases hc : c = 0
      · subst hc
        exact ⟨_, addCTN_zero _, hp⟩
      · obtain ⟨hm0, htl, hsing⟩ := canonP_cons_parts hp
        by_cases h0 : MonoGetExp (Mono.mk (Poly.coeff a) e0) = 0
        · rw [addCTN_phc _ tl c hc h0]
          simp only [monoGetExp_mk] at h0 htl
          subst h0
          rw [Nat.cast_zero] at htl
          simp only [mono_p_mk]
          rw [polyAdd_cc]
          by_cases hz : a + c = 0
          · have hcond : PolyIsZero (Poly.coeff (a + c)) = true := by simp [hz]
            rw [if_pos hcond, cloneL_eq]
            cases tl with
            | mnil => simp [isSingleConstExp0, Mono.p, PolyIsCoeff] at hsing
            | mcons m1 tl1 =>
                obtain ⟨he1, hm1, htl1⟩ := canonTail_cons_parts htl
                refine ⟨_, rfl, canonP_cons_build hm1 htl1 ?_⟩
                exact canonTail_notSingle (by omega)
                  (canonTail_cons_build he1 hm1 htl1)
          · have hcond : PolyIsZero (Poly.coeff (a + c)) = false := by simp [hz]
            rw [hcond, if_neg (by simp), cloneL_eq]
            refine ⟨_, rfl, canonP_cons_build ?_ ?_ ?_⟩
            · exact canonM_build (by simp) (by simp [hz])
            · simpa using htl
            · cases tl with
              | mnil =>
                  simp [isSingleConstExp0, Mono.p, PolyIsCoeff] at hsing
              | mcons m1 tl1 => simp [isSingleConstExp0]
        · rw [addCTN_pdhc _ tl c hc h0, cloneL_eq]
          refine ⟨_, rfl, canonP_cons_build ?_ ?_ ?_⟩
          · exact canonM_build (by simp) (by simp [hc])
          · refine canonTail_cons_build ?_ hm0 htl
            simp only [monoGetExp_mk] at h0 ⊢
            omega
          · simp [isSingleConstExp0]
  | .mcons (.mk (.terms ns) e0) tl, c, hp => by
      by_cases hc : c = 0
      · subst hc
        exact ⟨_, addCTN_zero _, hp⟩
      · obtain ⟨hm0, htl, hsing⟩ := canonP_cons_parts hp
        obtain ⟨hp0, hz0⟩ := canonM_parts hm0
        simp only [mono_p_mk] at hp0 hz0
        by_cases h0 : MonoGetExp (Mono.mk (Poly.terms ns) e0) = 0
        · rw [addCTN_phc _ tl c hc h0]
          simp only [monoGetExp_mk] at h0 htl
          subst h0
          rw [Nat.cast_zero] at htl
          simp only [mono_p_mk]
          obtain ⟨rs, hrs, hcanrs⟩ := canon_addCTN ns c hp0
          rw [polyAdd_tc, hrs]
          have hcond : PolyIsZero (Poly.terms rs) = false := by simp
          rw [hcond, if_neg (by simp), cloneL_eq]
          refine ⟨_, rfl, canonP_cons_build ?_ ?_ ?_⟩
          · exact canonM_build (by simpa using hcanrs) (by simp)
          · simpa using htl
          · cases tl with
            | mnil => simp [isSingleConstExp0, Mono.p, PolyIsCoeff]
            | mcons m1 tl1 => simp [isSingleConstExp0]
        · rw [addCTN_pdhc _ tl c hc h0, cloneL_eq]
          refine ⟨_, rfl, canonP_cons_build ?_ ?_ ?_⟩
          · exact canonM_build (by simp) (by simp [hc])
          · refine canonTail_cons_build ?_ hm0 htl
            simp only [monoGetExp_mk] at h0 ⊢
            omega
          · simp [isSingleConstExp0]
termination_by ms c => lsize ms
decreasing_by all_goals simp [msize_eq]; all_goals omega

theorem canon_merge : ∀ (e : Int) (ms ns : MList), canonTail e ms = true →
    canonTail e ns = true → canonTail e (mergeAdd ms ns) = true
  | _, .mnil, ns, _, hn => by
      rw [mergeAdd_nil_left]
      exact hn
  | _, .mcons m ms1, .mnil, hm, _ => by
      rw [mergeAdd_nil_right]
      exact hm
  | e, .mcons m ms1, .mcons n ns1, hm, hn => by
      obtain ⟨hem, hcm, hms1⟩ := canonTail_cons_parts hm
      obtain ⟨hen, hcn, hns1⟩ := canonTail_cons_parts hn
      rw [mergeAdd_cons_cons]
      by_cases hexp : MonoGetExp m = MonoGetExp n
      · rw [if_pos hexp]
        have hpm := canonM_parts hcm
        have hpn := canonM_parts hcn
        have hcansum := canon_add (Mono.p m) (Mono.p n) hpm.1 hpn.1
        have hrec : canonTail ((MonoGetExp m : Int)) (mergeAdd ms1 ns1) := by
          apply canon_merge _ ms1 ns1 hms1
          rw [hexp]
          exact hns1
        by_cases hz : PolyIsZero (PolyAdd (Mono.p m) (Mono.p n)) = true
        · rw [if_pos hz]
          exact canonTail_anti (by omega) hrec
        · rw [if_neg hz]
          apply canonTail_cons_build (by simpa using hem) ?_ (by simpa using hrec)
          apply canonM_build (by simpa using hcansum)
          simpa using hz
      · rw [if_neg hexp]
        by_cases hgt : MonoGetExp m > MonoGetExp n
        · rw [if_pos hgt]
          apply canonTail_cons_build hen hcn
          apply canon_merge _ (.mcons m ms1) ns1 ?_ hns1
          exact canonTail_cons_build (by omega) hcm hms1
        · rw [if_neg hgt]
          have hlt : MonoGetExp m < MonoGetExp n := by omega
          apply canonTail_cons_build hem hcm
          apply canon_merge _ ms1 (.mcons n ns1) hms1 ?_
          exact canonTail_cons_build (by omega) hcn hns1
termination_by e ms ns => lsize ms + lsize ns
decreasing_by all_goals simp [msize_eq]; all_goals omega

end

@[simp] theorem polyIsZero_neg (p : Poly) :
    PolyIsZero (PolyNeg p) = PolyIsZero p := by
  cases p with
  | coeff c => simp [PolyNeg, PolyFromCoeff, PolyIsZero]
  | terms ms => simp [PolyNeg, PolyFromSizeAndArray, PolyIsZero]

@[simp] theorem polyIsCoeff_neg (p : Poly) :
    PolyIsCoeff (PolyNeg p) = PolyIsCoeff p := by
  cases p <;> simp [PolyNeg, PolyFromCoeff, PolyFromSizeAndArray, PolyIsCoeff]

mutual

theorem canon_neg : ∀ p : Poly, canonP p = true → canonP (PolyNeg p) = true
  | .coeff c, _ => by simp [PolyNeg, PolyFromCoeff]
  | .terms .mnil, h => by simp [canonP] at h
  | .terms (.mcons m0 tl), h => by
      obtain ⟨hm0, htl, hsing⟩ := canonP_cons_parts h
      have hparts := canonM_parts hm0
      rw [PolyNeg, PolyFromSizeAndArray, negL]
      apply canonP_cons_build
      · exact canonM_build (by simpa using canon_neg (Mono.p m0) hparts.1)
          (by simpa using hparts.2)
      · simpa using canonTail_negL ((MonoGetExp m0 : Int)) tl htl
      · cases m0 with
        | mk p0 e0 =>
            cases tl with
            | mnil =>
                simpa [negL, isSingleConstExp0, MonoNeg, MonoFromPoly,
                  Mono.p] using hsing
            | mcons m1 tl1 => simp [negL, isSingleConstExp0]
termination_by p => psize p
decreasing_by all_goals simp [msize_eq]; all_goals omega

theorem canonTail_negL : ∀ (e : Int) (ms : MList), canonTail e ms = true →
    canonTail e (negL ms) = true
  | _, .mnil, _ => by simp [negL, canonTail]
  | e, .mcons m tl, h => by
      obtain ⟨he, hm, htl⟩ := canonTail_cons_parts h
      have hparts := canonM_parts hm
      rw [negL]
      apply canonTail_cons_build (by simpa using he)
      · exact canonM_build (by simpa using canon_neg (Mono.p m) hparts.1)
          (by simpa using hparts.2)
      · simpa using canonTail_negL ((MonoGetExp m : Int)) tl htl
termination_by e ms => lsize ms
decreasing_by all_goals simp [msize_eq]; all_goals omega

end

theorem canon_sub (p q : Poly) (hp : canonP p = true) (hq : canonP q = true) :
    canonP (PolySub p q) = true := by
  rw [PolySub]
  exact canon_add p (PolyNeg q) hp (canon_neg q hq)

/-- Weak (non-strict) exponent sortedness of a monomial array, as produced
by `MonoSort`. -/
def sortedW : MList → Bool
  | .mnil => true
  | .mcons _ .mnil => true
  | .mcons a (.mcons b t) =>
      decide (MonoGetExp a ≤ MonoGetExp b) && sortedW (.mcons b t)

/-- Every exponent of the array is strictly below `E`. -/
def allExpLt : MList → Nat → Bool
  | .mnil, _ => true
  | .mcons m ms, E => decide (MonoGetExp m < E) && allExpLt ms E

/-- The last monomial of the array has an exponent strictly above its
predecessor's and a nonzero coefficient: under sortedness this says the
maximal exponent occurs exactly once and does not cancel. -/
def okLast : MList → Bool
  | .mnil => false
  | .mcons x .mnil => !PolyIsZero (Mono.p x)
  | .mcons x (.mcons y .mnil) =>
      decide (MonoGetExp x < MonoGetExp y) && !PolyIsZero (Mono.p y)
  | .mcons _ rest => okLast rest

theorem okLast_tie {cur m : Mono} {ms : MList}
    (h : okLast (.mcons cur (.mcons m ms)) = true)
    (hexp : MonoGetExp cur = MonoGetExp m) :
    okLast (.mcons (MonoAdd cur m) ms) = true := by
  cases ms with
  | mnil =>
      simp [okLast] at h
      omega
  | mcons y t =>
      cases t with
      | mnil =>
          simp [okLast] at h ⊢
          exact ⟨by omega, h.2⟩
      | mcons z t2 => simpa [okLast] using h

theorem okLast_shift {cur m : Mono} {ms : MList}
    (h : okLast (.mcons cur (.mcons m ms)) = true) :
    okLast (.mcons m ms) = true := by
  cases ms with
  | mnil =>
      simp [okLast] at h ⊢
      exact h.2
  | mcons y t => simpa [okLast] using h

theorem addMonosLoop_canon : ∀ (rest : MList) (cur : Mono) (e : Int),
    canonP (Mono.p cur) = true → sortedW (.mcons cur rest) = true →
    allCanonM rest = true → okLast (.mcons cur rest) = true →
    e < (MonoGetExp cur : Int) →
    canonTail e (addMonosLoop cur rest) = true
  | .mnil, cur, e, hp, _, _, hok, he => by
      rw [addMonosLoop]
      simp [okLast] at hok
      exact canonTail_cons_build he (canonM_build hp (by simpa using hok))
        (by simp [canonTail])
  | .mcons m ms, cur, e, hp, hsor, hcan, hok, he => by
      rw [addMonosLoop]
      have hsp : MonoGetExp cur ≤ MonoGetExp m ∧ sortedW (.mcons m ms) = true := by
        simpa [sortedW] using hsor
      have hcm : canonM m = true ∧ allCanonM ms = true := by
        simpa [allCanonM] using hcan
      by_cases hexp : MonoGetExp cur = MonoGetExp m
      · simp only [hexp, beq_self_eq_true, if_true]
        apply addMonosLoop_canon ms (MonoAdd cur m) e ?_ ?_ hcm.2
          (okLast_tie hok hexp) ?_
        · simpa using canon_add _ _ hp (canonM_parts hcm.1).1
        · cases ms with
          | mnil => simp [sortedW]
          | mcons y t =>
              have h2 := hsp.2
              simp [sortedW, monoAdd_exp] at h2 ⊢
              exact ⟨by omega, h2.2⟩
        · simpa using he
      · have hlt : MonoGetExp cur < MonoGetExp m := by omega
        have hbeq : (MonoGetExp cur == MonoGetExp m) = false := by
          simp [hexp]
        rw [hbeq]
        simp only [Bool.false_eq_true, if_false, monoClone_eq]
        by_cases hz : PolyIsZero (Mono.p cur) = true
        · rw [if_pos hz]
          apply addMonosLoop_canon ms m e
            (canonM_parts hcm.1).1 hsp.2 hcm.2 (okLast_shift hok) ?_
          have hcast : (MonoGetExp cur : Int) < (MonoGetExp m : Int) := by
            exact_mod_cast hlt
          omega
        · rw [if_neg hz]
          apply canonTail_cons_build he (canonM_build hp (by simpa using hz))
          exact addMonosLoop_canon ms m ((MonoGetExp cur : Int))
            (canonM_parts hcm.1).1 hsp.2 hcm.2 (okLast_shift hok)
            (by exact_mod_cast hlt)
termination_by rest cur e => lsize rest
decreasing_by all_goals simp [msize_eq]; all_goals omega

/-- Is the head exponent (if any) at least `e`? -/
def headLE : Nat → MList → Bool
  | _, .mnil => true
  | e, .mcons m _ => decide (e ≤ MonoGetExp m)

theorem sortedW_cons (a : Mono) (t : MList) :
    sortedW (.mcons a t) = (headLE (MonoGetExp a) t && sortedW t) := by
  cases t with
  | mnil => simp [sortedW, headLE]
  | mcons b t2 => simp [sortedW, headLE]

theorem headLE_insert {e : Nat} {m : Mono} {l : MList}
    (h1 : headLE e l = true) (h2 : e ≤ MonoGetExp m) :
    headLE e (sortInsert m l) = true := by
  cases l with
  | mnil => simp [sortInsert, headLE, h2]
  | mcons n ns =>
      rw [sortInsert]
      by_cases hle : MonoGetExp m ≤ MonoGetExp n
      · simp [hle, headLE, h2]
      · simp [hle, headLE]
        simpa [headLE] using h1

theorem sortedW_insert : ∀ (l : MList) (m : Mono), sortedW l = true →
    sortedW (sortInsert m l) = true
  | .mnil, m, _ => by simp [sortInsert, sortedW]
  | .mcons n ns, m, h => by
      rw [sortInsert]
      rw [sortedW_cons] at h
      simp only [Bool.and_eq_true] at h
      by_cases hle : MonoGetExp m ≤ MonoGetExp n
      · rw [if_pos hle, sortedW_cons, sortedW_cons]
        simp only [Bool.and_eq_true]
        exact ⟨by simp [headLE, hle], h.1, h.2⟩
      · rw [if_neg hle, sortedW_cons]
        simp only [Bool.and_eq_true]
        refine ⟨headLE_insert h.1 (by omega), sortedW_insert ns m h.2⟩

theorem sortedW_sort : ∀ l : MList, sortedW (MonoSort l) = true
  | .mnil => by simp [MonoSort, sortedW]
  | .mcons m t => by
      rw [MonoSort]
      exact sortedW_insert (MonoSort t) m (sortedW_sort t)

theorem allCanonM_insert {m : Mono} : ∀ {l : MList}, canonM m = true →
    allCanonM l = true → allCanonM (sortInsert m l) = true
  | .mnil, hm, _ => by simp [sortInsert, allCanonM, hm]
  | .mcons n ns, hm, h => by
      rw [sortInsert]
      simp only [allCanonM, Bool.and_eq_true] at h
      by_cases hle : MonoGetExp m ≤ MonoGetExp n
      · rw [if_pos hle]
        simp [allCanonM, hm, h.1, h.2]
      · rw [if_neg hle]
        simp only [allCanonM, Bool.and_eq_true]
        exact ⟨h.1, allCanonM_insert hm h.2⟩

theorem allCanonM_sort : ∀ {l : MList}, allCanonM l = true →
    allCanonM (MonoSort l) = true
  | .mnil, _ => by simp [MonoSort, allCanonM]
  | .mcons m t, h => by
      rw [MonoSort]
      simp only [allCanonM, Bool.and_eq_true] at h
      exact allCanonM_insert h.1 (allCanonM_sort h.2)

theorem allExpLt_insert {m : Mono} {E : Nat} : ∀ {l : MList},
    allExpLt l E = true → MonoGetExp m < E → allExpLt (sortInsert m l) E = true
  | .mnil, _, hm => by simp [sortInsert, allExpLt, hm]
  | .mcons n ns, h, hm => by
      rw [sortInsert]
      simp only [allExpLt, Bool.and_eq_true, decide_eq_true_eq] at h
      by_cases hle : MonoGetExp m ≤ MonoGetExp n
      · rw [if_pos hle]
        simp [allExpLt, hm, h.1, h.2]
      · rw [if_neg hle]
        simp only [allExpLt, Bool.and_eq_true, decide_eq_true_eq]
        exact ⟨h.1, allExpLt_insert h.2 hm⟩

theorem allExpLt_sort {E : Nat} : ∀ {l : MList}, allExpLt l E = true →
    allExpLt (MonoSort l) E = true
  | .mnil, _ => by simp [MonoSort, allExpLt]
  | .mcons m t, h => by
      rw [MonoSort]
      simp only [allExpLt, Bool.and_eq_true, decide_eq_true_eq] at h
      exact allExpLt_insert (allExpLt_sort h.2) h.1

@[simp] theorem mappend_mnil : ∀ l : MList, mappend l .mnil = l
  | .mnil => rfl
  | .mcons m t => by rw [mappend, mappend_mnil]

theorem sortInsert_append_single : ∀ (s : MList) (m star : Mono),
    MonoGetExp m < MonoGetExp star →
    sortInsert m (mappend s (.mcons star .mnil)) =
      mappend (sortInsert m s) (.mcons star .mnil)
  | .mnil, m, star, h => by
      simp [mappend, sortInsert]
      intro hc
      omega
  | .mcons y s2, m, star, h => by
      rw [mappend, sortInsert, sortInsert]
      by_cases hle : MonoGetExp m ≤ MonoGetExp y
      · rw [if_pos hle, if_pos hle, mappend, mappend]
      · rw [if_neg hle, if_neg hle, mappend, sortInsert_append_single s2 m star h]

theorem monoSort_append_single : ∀ (l : MList) (star : Mono),
    allExpLt l (MonoGetExp star) = true →
    MonoSort (mappend l (.mcons star .mnil)) =
      mappend (MonoSort l) (.mcons star .mnil)
  | .mnil, star, _ => by simp [mappend, MonoSort, sortInsert]
  | .mcons x l2, star, h => by
      simp only [allExpLt, Bool.and_eq_true, decide_eq_true_eq] at h
      rw [mappend, MonoSort, monoSort_append_single l2 star h.2, MonoSort,
        sortInsert_append_single _ x star h.1]

theorem allExpLt_cons_parts {m : Mono} {t : MList} {E : Nat}
    (h : allExpLt (.mcons m t) E = true) :
    MonoGetExp m < E ∧ allExpLt t E = true := by
  simpa only [allExpLt, Bool.and_eq_true, decide_eq_true_eq] using h

theorem okLast_append_single : ∀ (s : MList) (star : Mono),
    allExpLt s (MonoGetExp star) = true → PolyIsZero (Mono.p star) = false →
    okLast (mappend s (.mcons star .mnil)) = true
  | .mnil, star, _, hz => by simp [mappend, okLast, hz]
  | .mcons x .mnil, star, h, hz => by
      have hparts := allExpLt_cons_parts h
      simp [mappend, okLast, hz, hparts.1]
  | .mcons x (.mcons y s2), star, h, hz => by
      have hparts := allExpLt_cons_parts h
      have hrec := okLast_append_single (.mcons y s2) star hparts.2 hz
      rw [mappend]
      cases hs2 : mappend s2 (.mcons star .mnil) with
      | mnil => cases s2 <;> simp [mappend] at hs2
      | mcons a b =>
          simp only [mappend] at hrec ⊢
          rw [hs2] at hrec ⊢
          simpa [okLast] using hrec

theorem addMonosLoop_ne_mnil : ∀ (cur : Mono) (rest : MList),
    addMonosLoop cur rest ≠ .mnil
  | cur, .mnil => by
      rw [addMonosLoop]
      intro hc
      cases hc
  | cur, .mcons m ms => by
      rw [addMonosLoop]
      split
      · exact addMonosLoop_ne_mnil _ ms
      · split
        · exact addMonosLoop_ne_mnil _ ms
        · intro hc
          cases hc

theorem mtake_mlength : ∀ l : MList, mtake (mlength l) l = l
  | .mnil => by simp [mlength, mtake]
  | .mcons m t => by
      rw [mlength]
      have : 1 + mlength t = mlength t + 1 := by omega
      rw [this, mtake, mtake_mlength t]

theorem allCanonM_append_parts : ∀ {a b : MList},
    allCanonM (mappend a b) = true → allCanonM a = true ∧ allCanonM b = true
  | .mnil, b, h => by
      simp [allCanonM] at h ⊢
      exact h
  | .mcons m a2, b, h => by
      rw [mappend] at h
      simp only [allCanonM, Bool.and_eq_true] at h ⊢
      have := allCanonM_append_parts h.2
      exact ⟨⟨h.1, this.1⟩, this.2⟩

theorem trim_nonzero : ∀ {l : MList}, canonTail (-1) l = true → l ≠ .mnil →
    PolyIsZero (TrimAndInterpretMonoArr l) = false
  | .mnil, _, hne => absurd rfl hne
  | .mcons m .mnil, h, _ => by
      obtain ⟨-, hm, -⟩ := canonTail_cons_parts h
      have hparts := canonM_parts hm
      rw [TrimAndInterpretMonoArr]
      rw [hparts.2]
      simp only [Bool.false_eq_true, if_false]
      split
      · exact hparts.2
      · simp [PolyFromSizeAndArray]
  | .mcons m (.mcons n t), _, _ => by
      simp [TrimAndInterpretMonoArr, PolyFromSizeAndArray]

theorem mappend_single_shape : ∀ (front : MList) (star : Mono),
    ∃ m0 rest, mappend front (.mcons star .mnil) = .mcons m0 rest
  | .mnil, star => ⟨star, .mnil, rfl⟩
  | .mcons x f2, star => ⟨x, mappend f2 (.mcons star .mnil), rfl⟩

theorem canonTail_sortedW : ∀ {e : Int} {l : MList}, canonTail e l = true →
    sortedW l = true
  | _, .mnil, _ => by simp [sortedW]
  | e, .mcons m t, h => by
      obtain ⟨he, hm, ht⟩ := canonTail_cons_parts h
      rw [sortedW_cons]
      simp only [Bool.and_eq_true]
      refine ⟨?_, canonTail_sortedW ht⟩
      cases t with
      | mnil => simp [headLE]
      | mcons n t2 =>
          obtain ⟨he2, -, -⟩ := canonTail_cons_parts ht
          simp [headLE]
          omega

theorem polyAddMonos_pipeline (front : MList) (star : Mono)
    (hcan : allCanonM (mappend front (.mcons star .mnil)) = true)
    (hlt : allExpLt front (MonoGetExp star) = true) :
    canonP (PolyAddMonos (mlength (mappend front (.mcons star .mnil)))
        (mappend front (.mcons star .mnil))) = true ∧
    PolyIsZero (PolyAddMonos (mlength (mappend front (.mcons star .mnil)))
        (mappend front (.mcons star .mnil))) = false := by
  obtain ⟨m0, rest, hshape⟩ := mappend_single_shape front star
  have hlen : (mlength (mappend front (.mcons star .mnil)) == 0) = false := by
    rw [hshape, mlength]
    simp
  have hzstar : PolyIsZero (Mono.p star) = false := by
    have h2 := (allCanonM_append_parts hcan).2
    simp only [allCanonM, Bool.and_eq_true] at h2
    exact (canonM_parts h2.1).2
  have hsortEq : MonoSort (mappend front (.mcons star .mnil)) =
      mappend (MonoSort front) (.mcons star .mnil) :=
    monoSort_append_single front star hlt
  have hok : okLast (MonoSort (mappend front (.mcons star .mnil))) = true := by
    rw [hsortEq]
    exact okLast_append_single (MonoSort front) star (allExpLt_sort hlt) hzstar
  have hsorted : sortedW (MonoSort (mappend front (.mcons star .mnil))) = true :=
    sortedW_sort _
  have hcanS : allCanonM (MonoSort (mappend front (.mcons star .mnil))) = true :=
    allCanonM_sort hcan
  rw [PolyAddMonos, hlen]
  rw [if_neg (by simp)]
  rw [mtake_mlength]
  obtain ⟨s0, srest, hs⟩ := mappend_single_shape (MonoSort front) star
  rw [hsortEq, hs] at hok hsorted hcanS
  rw [hsortEq, hs]
  simp only [allCanonM, Bool.and_eq_true] at hcanS
  have hloop := addMonosLoop_canon srest s0 ((MonoGetExp s0 : Int) - 1)
    (canonM_parts hcanS.1).1 hsorted hcanS.2 hok (by omega)
  have hm1 : canonTail (-1) (addMonosLoop s0 srest) = true :=
    canonTail_anti (by omega) hloop
  have hne : addMonosLoop s0 srest ≠ .mnil := by
    cases srest with
    | mnil =>
        rw [addMonosLoop]
        intro hc
        cases hc
    | mcons a b =>
        rw [addMonosLoop]
        split
        · exact addMonosLoop_ne_mnil _ _
        · split
          · exact addMonosLoop_ne_mnil _ _
          · intro hc
            cases hc

  exact ⟨trim_canon hm1, trim_nonzero hm1 hne⟩

theorem monoSort_sorted_id : ∀ l : MList, sortedW l = true → MonoSort l = l
  | .mnil, _ => by simp [MonoSort]
  | .mcons m t, h => by
      rw [sortedW_cons] at h
      simp only [Bool.and_eq_true] at h
      rw [MonoSort, monoSort_sorted_id t h.2]
      cases t with
      | mnil => simp [sortInsert]
      | mcons n ns =>
          simp only [headLE, decide_eq_true_eq] at h
          rw [sortInsert, if_pos h.1]

theorem addMonosLoop_strict_id : ∀ (rest : MList) (cur : Mono),
    canonM cur = true → canonTail ((MonoGetExp cur : Int)) rest = true →
    addMonosLoop cur rest = .mcons cur rest
  | .mnil, cur, _, _ => by rw [addMonosLoop]
  | .mcons m ms, cur, hcur, ht => by
      obtain ⟨he, hm, hms⟩ := canonTail_cons_parts ht
      rw [addMonosLoop]
      have hne : (MonoGetExp cur == MonoGetExp m) = false := by
        simp only [beq_eq_false_iff_ne, ne_eq]
        intro hc
        rw [hc] at he
        omega
      rw [hne]
      simp only [Bool.false_eq_true, if_false, monoClone_eq]
      rw [if_neg (by simp [(canonM_parts hcur).2]),
        addMonosLoop_strict_id ms m hm hms]

theorem polyAddMonos_canonical_id : ∀ ms : MList, canonTail (-1) ms = true →
    ms ≠ .mnil → PolyAddMonos (mlength ms) ms = TrimAndInterpretMonoArr ms
  | .mnil, _, hne => absurd rfl hne
  | .mcons m0 rest, h, _ => by
      obtain ⟨-, hm0, hrest⟩ := canonTail_cons_parts h
      rw [PolyAddMonos]
      rw [if_neg (by simp [mlength])]
      rw [mtake_mlength, monoSort_sorted_id _ (canonTail_sortedW h)]
      show TrimAndInterpretMonoArr (addMonosLoop m0 rest) = _
      rw [addMonosLoop_strict_id rest m0 hm0 hrest]

/-- Last monomial of an array (`arr[size-1]`); junk for the empty array. -/
def mlast : MList → Mono
  | .mnil => .mk (.coeff 0) 0
  | .mcons m .mnil => m
  | .mcons _ (.mcons n t) => mlast (.mcons n t)

theorem lastExp_eq_mlast : ∀ l : MList, lastExp l = MonoGetExp (mlast l)
  | .mnil => by simp [lastExp, mlast, MonoGetExp]
  | .mcons m .mnil => by simp [lastExp, mlast]
  | .mcons m (.mcons n t) => by
      rw [lastExp, mlast]
      exact lastExp_eq_mlast (.mcons n t)

theorem canonTail_lt_lastExp : ∀ {e : Int} {l : MList}, canonTail e l = true →
    l ≠ .mnil → e < (lastExp l : Int)
  | e, .mcons m .mnil, h, _ => by
      obtain ⟨he, -, -⟩ := canonTail_cons_parts h
      simpa [lastExp] using he
  | e, .mcons m (.mcons n t), h, _ => by
      obtain ⟨he, -, ht⟩ := canonTail_cons_parts h
      have := canonTail_lt_lastExp ht (by intro hc; cases hc)
      rw [lastExp]
      omega

theorem canonTail_mlast_canonM : ∀ {e : Int} {l : MList},
    canonTail e l = true → l ≠ .mnil → canonM (mlast l) = true
  | e, .mcons m .mnil, h, _ => by
      obtain ⟨-, hm, -⟩ := canonTail_cons_parts h
      simpa [mlast] using hm
  | e, .mcons m (.mcons n t), h, _ => by
      obtain ⟨-, -, ht⟩ := canonTail_cons_parts h
      rw [mlast]
      exact canonTail_mlast_canonM ht (by intro hc; cases hc)

theorem psize_mlast_le : ∀ l : MList, psize (Mono.p (mlast l)) ≤ lsize l
  | .mnil => by simp [mlast, Mono.p]
  | .mcons m .mnil => by
      simp [mlast, msize_eq]
      omega
  | .mcons m (.mcons n t) => by
      rw [mlast]
      have h := psize_mlast_le (.mcons n t)
      simp at h ⊢
      omega

theorem crossOne_nil (m : Mono) : crossOne m .mnil = .mnil := by
  rw [crossOne]

theorem crossOne_cons (m n : Mono) (ns : MList) :
    crossOne m (.mcons n ns) = .mcons (MonoMul m n) (crossOne m ns) := by
  rw [crossOne]

theorem crossAll_nil (ns : MList) : crossAll .mnil ns = .mnil := by
  rw [crossAll]

theorem crossAll_cons (m : Mono) (ms ns : MList) :
    crossAll (.mcons m ms) ns = mappend (crossOne m ns) (crossAll ms ns) := by
  rw [crossAll]

@[simp] theorem monoMul_exp (m n : Mono) :
    MonoGetExp (MonoMul m n) = MonoGetExp m + MonoGetExp n := by
  rw [MonoMul]
  simp

@[simp] theorem monoMul_p (m n : Mono) :
    Mono.p (MonoMul m n) = PolyMul (Mono.p m) (Mono.p n) := by
  rw [MonoMul]
  simp

theorem mappend_assoc : ∀ a b c : MList,
    mappend (mappend a b) c = mappend a (mappend b c)
  | .mnil, _, _ => by simp [mappend]
  | .mcons m a2, b, c => by
      rw [mappend, mappend, mappend, mappend_assoc a2 b c]

theorem allExpLt_weaken : ∀ {l : MList} {E F : Nat}, allExpLt l E = true →
    E ≤ F → allExpLt l F = true
  | .mnil, _, _, _, _ => by simp [allExpLt]
  | .mcons m t, E, F, h, hle => by
      obtain ⟨h1, h2⟩ := allExpLt_cons_parts h
      simp only [allExpLt, Bool.and_eq_true, decide_eq_true_eq]
      exact ⟨by omega, allExpLt_weaken h2 hle⟩

theorem allExpLt_append : ∀ {a b : MList} {E : Nat}, allExpLt a E = true →
    allExpLt b E = true → allExpLt (mappend a b) E = true
  | .mnil, b, E, _, hb => by simpa [mappend]
  | .mcons m t, b, E, ha, hb => by
      obtain ⟨h1, h2⟩ := allExpLt_cons_parts ha
      rw [mappend]
      simp only [allExpLt, Bool.and_eq_true, decide_eq_true_eq]
      exact ⟨h1, allExpLt_append h2 hb⟩

theorem crossOne_decomp : ∀ (ns : MList) (m : Mono) (e : Int),
    canonTail e ns = true → ns ≠ .mnil →
    ∃ front, crossOne m ns =
        mappend front (.mcons (MonoMul m (mlast ns)) .mnil) ∧
      allExpLt front (MonoGetExp m + lastExp ns) = true
  | .mcons n .mnil, m, e, _, _ => by
      refine ⟨.mnil, ?_, by simp [allExpLt]⟩
      rw [crossOne_cons, crossOne_nil, mappend]
      simp [mlast]
  | .mcons n (.mcons n2 t), m, e, h, _ => by
      obtain ⟨he, hn, ht⟩ := canonTail_cons_parts h
      obtain ⟨front2, heq, hlt⟩ :=
        crossOne_decomp (.mcons n2 t) m (MonoGetExp n) ht (by intro hc; cases hc)
      refine ⟨.mcons (MonoMul m n) front2, ?_, ?_⟩
      · rw [crossOne_cons, heq, mappend]
        rw [show mlast (.mcons n (.mcons n2 t)) = mlast (.mcons n2 t) from rfl]
      · rw [show lastExp (.mcons n (.mcons n2 t)) = lastExp (.mcons n2 t) from rfl]
        have hlast : (MonoGetExp n : Int) < (lastExp (.mcons n2 t) : Int) :=
          canonTail_lt_lastExp ht (by intro hc; cases hc)
        simp only [allExpLt, Bool.and_eq_true, decide_eq_true_eq, monoMul_exp]
        exact ⟨by omega, hlt⟩

theorem crossAll_decomp : ∀ (ms ns : MList) (e1 e2 : Int),
    canonTail e1 ms = true → canonTail e2 ns = true → ms ≠ .mnil →
    ns ≠ .mnil →
    ∃ front, crossAll ms ns =
        mappend front (.mcons (MonoMul (mlast ms) (mlast ns)) .mnil) ∧
      allExpLt front (lastExp ms + lastExp ns) = true
  | .mcons m .mnil, ns, e1, e2, h1, h2, _, hne2 => by
      obtain ⟨front, heq, hlt⟩ := crossOne_decomp ns m e2 h2 hne2
      refine ⟨front, ?_, ?_⟩
      · rw [crossAll_cons, crossAll_nil, mappend_mnil, heq]
        rw [show mlast (.mcons m .mnil) = m from rfl]
      · rw [show lastExp (.mcons m .mnil) = MonoGetExp m from rfl]
        exact hlt
  | .mcons m (.mcons m2 t), ns, e1, e2, h1, h2, _, hne2 => by
      obtain ⟨he, hm, ht⟩ := canonTail_cons_parts h1
      obtain ⟨frontR, heqR, hltR⟩ :=
        crossAll_decomp (.mcons m2 t) ns (MonoGetExp m) e2 ht h2
          (by intro hc; cases hc) hne2
      obtain ⟨front1, heq1, hlt1⟩ := crossOne_decomp ns m e2 h2 hne2
      refine ⟨mappend (crossOne m ns) frontR, ?_, ?_⟩
      · rw [crossAll_cons, heqR, mappend_assoc]
        rw [show mlast (.mcons m (.mcons m2 t)) = mlast (.mcons m2 t) from rfl]
      · rw [show lastExp (.mcons m (.mcons m2 t)) = lastExp (.mcons m2 t) from rfl]
        have hmlt : (MonoGetExp m : Int) < (lastExp (.mcons m2 t) : Int) :=
          canonTail_lt_lastExp ht (by intro hc; cases hc)
        apply allExpLt_append ?_ hltR
        rw [heq1]
        apply allExpLt_append
        · exact allExpLt_weaken hlt1 (by omega)
        · simp only [allExpLt, Bool.and_eq_true, decide_eq_true_eq, monoMul_exp,
            Bool.and_true]
          rw [← lastExp_eq_mlast]
          omega

theorem polyMul_cc (a b : Int) : PolyMul (.coeff a) (.coeff b) = .coeff (b * a) := by
  rw [PolyMul, PolyFromCoeff]

theorem polyMul_ct (a : Int) (ns : MList) :
    PolyMul (.coeff a) (.terms ns) =
      PolyMulCoeffAndNonCoeff (.terms ns) (.coeff a) := by
  rw [PolyMul, PolyMulCoeffAndNonCoeff]

theorem polyMul_tc (ms : MList) (b : Int) :
    PolyMul (.terms ms) (.coeff b) =
      PolyMulCoeffAndNonCoeff (.terms ms) (.coeff b) := by
  rw [PolyMul]

theorem polyMul_tt (ms ns : MList) :
    PolyMul (.terms ms) (.terms ns) =
      PolyAddMonos (mlength (crossAll ms ns)) (crossAll ms ns) := by
  rw [PolyMul]

theorem mulCNC_zero (ms : MList) :
    PolyMulCoeffAndNonCoeff (.terms ms) (.coeff 0) = PolyZero := by
  rw [PolyMulCoeffAndNonCoeff.eq_def]
  simp [PolyIsZero]

theorem mulCNC_nonzero (ms : MList) {c : Int} (hc : ¬c = 0) :
    PolyMulCoeffAndNonCoeff (.terms ms) (.coeff c) =
      PolyAddMonos (mlength (mulCoeffL ms (.coeff c)))
        (mulCoeffL ms (.coeff c)) := by
  rw [PolyMulCoeffAndNonCoeff.eq_def]
  simp [PolyIsZero, hc]

theorem mulCoeffL_nil (q : Poly) : mulCoeffL .mnil q = .mnil := by
  rw [mulCoeffL]

theorem mulCoeffL_cons (m : Mono) (ms : MList) (q : Poly) :
    mulCoeffL (.mcons m ms) q = .mcons (MonoMulCoeff m q) (mulCoeffL ms q) := by
  rw [mulCoeffL]

@[simp] theorem monoMulCoeff_exp (m : Mono) (c : Poly) :
    MonoGetExp (MonoMulCoeff m c) = MonoGetExp m := by
  rw [MonoMulCoeff]
  simp

@[simp] theorem monoMulCoeff_p (m : Mono) (c : Poly) :
    Mono.p (MonoMulCoeff m c) = PolyMul (Mono.p m) c := by
  rw [MonoMulCoeff]
  simp

theorem allCanonM_append_build : ∀ {a b : MList}, allCanonM a = true →
    allCanonM b = true → allCanonM (mappend a b) = true
  | .mnil, b, _, hb => by simpa [mappend]
  | .mcons m a2, b, ha, hb => by
      simp only [allCanonM, Bool.and_eq_true] at ha
      rw [mappend]
      simp only [allCanonM, Bool.and_eq_true]
      exact ⟨ha.1, allCanonM_append_build ha.2 hb⟩

mutual

theorem canon_mul : ∀ p q : Poly, canonP p = true → canonP q = true →
    canonP (PolyMul p q) = true ∧
      (PolyIsZero p = false → PolyIsZero q = false →
        PolyIsZero (PolyMul p q) = false)
  | .coeff a, .coeff b, _, _ => by
      rw [polyMul_cc]
      refine ⟨by simp, ?_⟩
      intro ha hb
      simp only [polyIsZero_coeff, beq_eq_false_iff_ne, ne_eq] at ha hb ⊢
      exact mul_ne_zero hb ha
  | .coeff a, .terms ns, _, hq => by
      rw [polyMul_ct]
      have h := canon_mulCNC ns a hq
      refine ⟨h.1, fun ha _ => h.2 ?_⟩
      simpa using ha
  | .terms ms, .coeff b, hp, _ => by
      rw [polyMul_tc]
      have h := canon_mulCNC ms b hp
      refine ⟨h.1, fun _ hb => h.2 ?_⟩
      simpa using hb
  | .terms ms, .terms ns, hp, hq => by
      rw [polyMul_tt]
      have hmsne : ms ≠ .mnil := by
        intro hc
        subst hc
        simp [canonP] at hp
      have hnsne : ns ≠ .mnil := by
        intro hc
        subst hc
        simp [canonP] at hq
      obtain ⟨front, heq, hlt⟩ := crossAll_decomp ms ns (-1) (-1)
        (canonP_terms_canonTail hp) (canonP_terms_canonTail hq) hmsne hnsne
      have hcanCross : allCanonM (crossAll ms ns) = true :=
        canon_crossAll ms ns (canonP_terms_allCanonM ms hp)
          (canonP_terms_allCanonM ns hq)
      rw [heq] at hcanCross ⊢
      have hstar : allExpLt front
          (MonoGetExp (MonoMul (mlast ms) (mlast ns))) = true := by
        rw [monoMul_exp, ← lastExp_eq_mlast, ← lastExp_eq_mlast]
        exact hlt
      have hpipe := polyAddMonos_pipeline front (MonoMul (mlast ms) (mlast ns))
        hcanCross hstar
      exact ⟨hpipe.1, fun _ _ => hpipe.2⟩
termination_by p q => psize p + psize q
decreasing_by all_goals simp [msize_eq]; all_goals omega

theorem canon_mulCNC : ∀ (ms : MList) (c : Int), canonP (.terms ms) = true →
    canonP (PolyMulCoeffAndNonCoeff (.terms ms) (.coeff c)) = true ∧
      (¬c = 0 →
        PolyIsZero (PolyMulCoeffAndNonCoeff (.terms ms) (.coeff c)) = false)
  | ms, c, hp => by
      by_cases hc : c = 0
      · subst hc
        rw [mulCNC_zero]
        exact ⟨by simp [PolyZero, PolyFromCoeff], fun h => absurd rfl h⟩
      · rw [mulCNC_nonzero ms hc]
        have hml : canonTail (-1) (mulCoeffL ms (.coeff c)) = true :=
          canon_mulCoeffL (-1) ms c hc (canonP_terms_canonTail hp)
        have hmlne : mulCoeffL ms (.coeff c) ≠ .mnil := by
          cases ms with
          | mnil => simp [canonP] at hp
          | mcons m tl =>
              rw [mulCoeffL_cons]
              intro hcc
              cases hcc
        rw [polyAddMonos_canonical_id _ hml hmlne]
        exact ⟨trim_canon hml, fun _ => trim_nonzero hml hmlne⟩
termination_by ms c => lsize ms + 1
decreasing_by all_goals simp [msize_eq]; all_goals omega

theorem canon_mulCoeffL : ∀ (e : Int) (ms : MList) (c : Int), ¬c = 0 →
    canonTail e ms = true → canonTail e (mulCoeffL ms (.coeff c)) = true
  | e, .mnil, c, _, _ => by
      rw [mulCoeffL_nil]
      simp [canonTail]
  | e, .mcons m tl, c, hc, h => by
      obtain ⟨he, hm, htl⟩ := canonTail_cons_parts h
      have hparts := canonM_parts hm
      have hmul := canon_mul (Mono.p m) (.coeff c) hparts.1 (by simp)
      rw [mulCoeffL_cons]
      apply canonTail_cons_build
      · simpa using he
      · apply canonM_build
        · simpa using hmul.1
        · simp only [monoMulCoeff_p]
          exact hmul.2 hparts.2 (by simpa using hc)
      · simpa using canon_mulCoeffL ((MonoGetExp m : Int)) tl c hc htl
termination_by e ms c => lsize ms
decreasing_by all_goals simp [msize_eq]; all_goals omega

theorem canon_crossAll : ∀ (ms ns : MList), allCanonM ms = true →
    allCanonM ns = true → allCanonM (crossAll ms ns) = true
  | .mnil, ns, _, _ => by
      rw [crossAll_nil]
      simp [allCanonM]
  | .mcons m ms2, ns, hm, hn => by
      rw [crossAll_cons]
      simp only [allCanonM, Bool.and_eq_true] at hm
      exact allCanonM_append_build (canon_crossOne m ns hm.1 hn)
        (canon_crossAll ms2 ns hm.2 hn)
termination_by ms ns => lsize ms + lsize ns
decreasing_by all_goals simp [msize_eq]; all_goals omega

theorem canon_crossOne : ∀ (m : Mono) (ns : MList), canonM m = true →
    allCanonM ns = true → allCanonM (crossOne m ns) = true
  | m, .mnil, _, _ => by
      rw [crossOne_nil]
      simp [allCanonM]
  | m, .mcons n ns2, hm, hn => by
      simp only [allCanonM, Bool.and_eq_true] at hn
      have hmul := canon_mul (Mono.p m) (Mono.p n) (canonM_parts hm).1
        (canonM_parts hn.1).1
      rw [crossOne_cons]
      simp only [allCanonM, Bool.and_eq_true]
      refine ⟨?_, canon_crossOne m ns2 hm hn.2⟩
      apply canonM_build
      · simpa using hmul.1
      · simp only [monoMul_p]
        exact hmul.2 (canonM_parts hm).2 (canonM_parts hn.1).2
termination_by m ns => msize m + lsize ns
decreasing_by all_goals simp [msize_eq]; all_goals omega

end

theorem canon_power : ∀ (n : Nat) (p : Poly), canonP p = true →
    canonP (PolyPower p n) = true
  | n, p, hp => by
      rw [PolyPower]
      by_cases h0 : n == 0
      · rw [if_pos h0]
        simp [PolyFromCoeff]
      · rw [if_neg (by simpa using h0)]
        by_cases h1 : n == 1
        · rw [if_pos h1, polyClone_eq]
          exact hp
        · rw [if_neg (by simpa using h1)]
          have hn0 : ¬n = 0 := by simpa using h0
          have hn1 : ¬n = 1 := by simpa using h1
          have hmul := (canon_mul p p hp hp).1
          by_cases h2 : n % 2 == 1
          · rw [if_pos h2]
            exact (canon_mul p _ hp
              (canon_power ((n - 1) / 2) (PolyMul p p) hmul)).1
          · rw [if_neg (by simpa using h2)]
            exact canon_power (n / 2) (PolyMul p p) hmul
termination_by n p => n
decreasing_by all_goals simp_all; all_goals omega

theorem canon_atLoop : ∀ (ms : MList) (x : Int) (acc : Poly),
    canonP acc = true → allCanonM ms = true → canonP (atLoop ms x acc) = true
  | .mnil, _, acc, hacc, _ => by
      rw [atLoop]
      exact hacc
  | .mcons m tl, x, acc, hacc, h => by
      simp only [allCanonM, Bool.and_eq_true] at h
      rw [atLoop]
      apply canon_atLoop tl x _ ?_ h.2
      apply canon_add _ _ hacc
      rw [MonoAt]
      exact (canon_mul (Mono.p m) _ (canonM_parts h.1).1 (by
        simp [PolyFromCoeff])).1

theorem canon_polyAt (p : Poly) (x : Int) (hp : canonP p = true) :
    canonP (PolyAt p x) = true := by
  cases p with
  | coeff c =>
      rw [PolyAt, polyClone_eq]
      exact hp
  | terms ms =>
      rw [PolyAt]
      exact canon_atLoop ms x PolyZero (by simp [PolyZero, PolyFromCoeff])
        (canonP_terms_allCanonM ms hp)

theorem canonP_getD : ∀ (qs : List Poly) (v : Nat),
    (∀ r ∈ qs, canonP r = true) → canonP (qs.getD v PolyZero) = true
  | [], v, _ => by simp [List.getD, PolyZero, PolyFromCoeff]
  | r :: rest, 0, h => by
      simp only [List.getD_cons_zero]
      exact h r (by simp)
  | r :: rest, v + 1, h => by
      simp only [List.getD_cons_succ]
      exact canonP_getD rest v (fun x hx => h x (by simp [hx]))

mutual

theorem canon_composeHelper : ∀ (p : Poly) (k v : Nat) (qs : List Poly),
    canonP p = true → (∀ r ∈ qs, canonP r = true) →
    canonP (PolyComposeHelper p k v qs) = true
  | .coeff c, _, _, _, _, _ => by
      rw [PolyComposeHelper, polyClone_eq]
      simp
  | .terms ms, k, v, qs, hp, hqs => by
      rw [PolyComposeHelper]
      exact canon_composeL ms k v qs PolyZero (canonP_terms_allCanonM ms hp)
        hqs (by simp [PolyZero, PolyFromCoeff])
termination_by p k v qs => psize p
decreasing_by all_goals simp [msize_eq]; all_goals omega

theorem canon_composeL : ∀ (ms : MList) (k v : Nat) (qs : List Poly)
    (acc : Poly), allCanonM ms = true → (∀ r ∈ qs, canonP r = true) →
    canonP acc = true → canonP (composeL ms k v qs acc) = true
  | .mnil, _, _, _, acc, _, _, hacc => by
      rw [composeL]
      exact hacc
  | .mcons m tl, k, v, qs, acc, h, hqs, hacc => by
      simp only [allCanonM, Bool.and_eq_true] at h
      rw [composeL]
      exact canon_composeL tl k v qs _ h.2 hqs
        (canon_add _ _ hacc (canon_monoCompose m k v qs h.1 hqs))
termination_by ms k v qs acc => lsize ms
decreasing_by all_goals simp [msize_eq]; all_goals omega

theorem canon_monoCompose : ∀ (m : Mono) (k v : Nat) (qs : List Poly),
    canonM m = true → (∀ r ∈ qs, canonP r = true) →
    canonP (MonoComposeHelper m k v qs) = true
  | m, k, v, qs, hm, hqs => by
      rw [MonoComposeHelper]
      have hcoeff := canon_composeHelper (Mono.p m) k (v + 1) qs
        (canonM_parts hm).1 hqs
      by_cases h0 : MonoGetExp m == 0
      · rw [if_pos h0]
        exact hcoeff
      · rw [if_neg (by simpa using h0)]
        by_cases hk : v < k
        · rw [if_pos hk]
          exact (canon_mul _ _ hcoeff
            (canon_power (MonoGetExp m) _ (canonP_getD qs v hqs))).1
        · rw [if_neg hk]
          simp [PolyZero, PolyFromCoeff]
termination_by m k v qs => msize m
decreasing_by all_goals simp [msize_eq]; all_goals omega

end

theorem canon_polyCompose (p : Poly) (k : Nat) (qs : List Poly)
    (hp : canonP p = true) (hqs : ∀ r ∈ qs, canonP r = true) :
    canonP (PolyCompose p k qs) = true := by
  rw [PolyCompose]
  exact canon_composeHelper p k 0 qs hp hqs

theorem assert_monoNeg (m : Mono) (hm : canonM m = true) :
    PolyIsZero (PolyNeg (Mono.p m)) = false := by
  rw [polyIsZero_neg]
  exact (canonM_parts hm).2

theorem assert_phasConst (m0 : Mono) (tl : MList) (c : Int)
    (hp : canonP (.terms (.mcons m0 tl)) = true) (h0 : MonoGetExp m0 = 0)
    (hc : ¬c = 0)
    (hz : PolyIsZero (PolyAdd (Mono.p m0) (.coeff c)) = true) :
    tl ≠ .mnil := by
  intro hcc
  subst hcc
  obtain ⟨hm0, -, hsing⟩ := canonP_cons_parts hp
  cases hm : Mono.p m0 with
  | coeff a =>
      rw [show isSingleConstExp0 (.mcons m0 .mnil) =
          (MonoGetExp m0 == 0 && PolyIsCoeff (Mono.p m0)) from rfl, h0, hm]
        at hsing
      simp [PolyIsCoeff] at hsing
  | terms ns =>
      have hcanns : canonP (.terms ns) = true := by
        have h1 := (canonM_parts hm0).1
        rwa [hm] at h1
      obtain ⟨rs, hrs, -⟩ := canon_addCTN ns c hcanns
      rw [hm, polyAdd_tc, hrs] at hz
      simp at hz

/-- Claim C6: on well-formed canonical inputs, every arithmetic operator is
a total function with no failure path.  In this embedding every operator is
a total Lean function (all recursions terminate by construction), so the
content of the claim is: (i) the operators preserve canonical form, which is
what keeps every internal constructor call well-formed, and (ii) the two
internal assertion conditions named by the claim cannot fire — the
`MonoFromPoly` assertion `n == 0 || !PolyIsZero(p)` at its one nonzero-
exponent call site (inside `MonoNeg`, used by `PolyNeg`), and the
`PolyFromSizeAndArray` assertion `arr != NULL && size != 0` (a canonical
term list is never empty, and the one shrinking construction site, in
`PolyAddCoeffIfPhasConst`, never reaches size 0).  `PolyDeg`, `PolyDegBy`
and `PolyIsEq` construct nothing and are total by definition. -/
theorem c6_operators_total_on_canonical :
    (∀ p q : Poly, canonP p = true → canonP q = true →
      canonP (PolyAdd p q) = true ∧ canonP (PolySub p q) = true ∧
        canonP (PolyMul p q) = true) ∧
    (∀ p : Poly, canonP p = true → canonP (PolyNeg p) = true) ∧
    (∀ (p : Poly) (x : Int), canonP p = true → canonP (PolyAt p x) = true) ∧
    (∀ (p : Poly) (k : Nat) (qs : List Poly), canonP p = true →
      (∀ r ∈ qs, canonP r = true) → canonP (PolyCompose p k qs) = true) ∧
    (∀ m : Mono, canonM m = true →
      MonoGetExp m = 0 ∨ PolyIsZero (PolyNeg (Mono.p m)) = false) ∧
    (∀ (m0 : Mono) (tl : MList) (c : Int),
      canonP (.terms (.mcons m0 tl)) = true → MonoGetExp m0 = 0 → ¬c = 0 →
      PolyIsZero (PolyAdd (Mono.p m0) (.coeff c)) = true → tl ≠ .mnil) ∧
    (∀ ms : MList, canonP (.terms ms) = true → ms ≠ .mnil) := by
  refine ⟨?_, canon_neg, canon_polyAt, canon_polyCompose, ?_, assert_phasConst, ?_⟩
  · intro p q hp hq
    exact ⟨canon_add p q hp hq, canon_sub p q hp hq, (canon_mul p q hp hq).1⟩
  · intro m hm
    exact Or.inr (assert_monoNeg m hm)
  · intro ms hms hcc
    subst hcc
    simp [canonP] at hms

/-- Witness for claim C6 at the canonical inputs 1 + 2 x0 and 3 x0^2 (and a
one-element composition list). -/
theorem c6_witness :
    canonP (PolyAdd (.terms (.mcons (.mk (.coeff 1) 0)
        (.mcons (.mk (.coeff 2) 1) .mnil)))
      (.terms (.mcons (.mk (.coeff 3) 2) .mnil))) = true ∧
    canonP (PolySub (.terms (.mcons (.mk (.coeff 1) 0)
        (.mcons (.mk (.coeff 2) 1) .mnil)))
      (.terms (.mcons (.mk (.coeff 3) 2) .mnil))) = true ∧
    canonP (PolyMul (.terms (.mcons (.mk (.coeff 1) 0)
        (.mcons (.mk (.coeff 2) 1) .mnil)))
      (.terms (.mcons (.mk (.coeff 3) 2) .mnil))) = true ∧
    canonP (PolyNeg (.terms (.mcons (.mk (.coeff 3) 2) .mnil))) = true ∧
    canonP (PolyAt (.terms (.mcons (.mk (.coeff 3) 2) .mnil)) 5) = true ∧
    canonP (PolyCompose (.terms (.mcons (.mk (.coeff 3) 2) .mnil)) 1
      [.coeff 7]) = true := by
  have h := c6_operators_total_on_canonical
  have h1 := h.1 (.terms (.mcons (.mk (.coeff 1) 0)
      (.mcons (.mk (.coeff 2) 1) .mnil)))
    (.terms (.mcons (.mk (.coeff 3) 2) .mnil)) (by decide) (by decide)
  refine ⟨h1.1, h1.2.1, h1.2.2, ?_, ?_, ?_⟩
  · exact h.2.1 _ (by decide)
  · exact h.2.2.1 _ 5 (by decide)
  · exact h.2.2.2.1 _ 1 [.coeff 7] (by decide) (by
      intro r hr
      simp at hr
      subst hr
      decide)

theorem polyAdd_zero_left : ∀ p : Poly, PolyAdd (.coeff 0) p = p
  | .coeff b => by
      rw [polyAdd_cc]
      simp
  | .terms ms => by rw [polyAdd_ct, addCTN_zero]

theorem polyAdd_zero_right : ∀ p : Poly, PolyAdd p (.coeff 0) = p
  | .coeff a => by
      rw [polyAdd_cc]
      simp
  | .terms ms => by rw [polyAdd_tc, addCTN_zero]

theorem polyMul_zero_right : ∀ p : Poly, PolyMul p (.coeff 0) = .coeff 0
  | .coeff a => by
      rw [polyMul_cc]
      simp
  | .terms ms => by
      rw [polyMul_tc, mulCNC_zero, PolyZero, PolyFromCoeff]

theorem trim_of_canonP : ∀ ms : MList, canonP (.terms ms) = true →
    TrimAndInterpretMonoArr ms = .terms ms
  | .mnil, h => by simp [canonP] at h
  | .mcons m .mnil, h => by
      obtain ⟨hm, -, hsing⟩ := canonP_cons_parts h
      rw [TrimAndInterpretMonoArr, (canonM_parts hm).2]
      simp only [Bool.false_eq_true, if_false]
      rw [show (MonoGetExp m == 0 && PolyIsCoeff (Mono.p m)) =
          isSingleConstExp0 (.mcons m .mnil) from rfl, hsing]
      simp [PolyFromSizeAndArray]
  | .mcons m (.mcons n t), _ => by
      simp [TrimAndInterpretMonoArr, PolyFromSizeAndArray]

mutual

theorem polyMul_one : ∀ p : Poly, canonP p = true → PolyMul p (.coeff 1) = p
  | .coeff a, _ => by
      rw [polyMul_cc]
      simp
  | .terms ms, hp => by
      rw [polyMul_tc, mulCNC_nonzero ms (by omega),
        mulCoeffL_one ms (canonP_terms_allCanonM ms hp),
        polyAddMonos_canonical_id ms (canonP_terms_canonTail hp)
          (by intro hc; subst hc; simp [canonP] at hp)]
      exact trim_of_canonP ms hp
termination_by p => psize p
decreasing_by all_goals simp [msize_eq]; all_goals omega

theorem mulCoeffL_one : ∀ ms : MList, allCanonM ms = true →
    mulCoeffL ms (.coeff 1) = ms
  | .mnil, _ => by rw [mulCoeffL_nil]
  | .mcons (.mk p e) tl, h => by
      simp only [allCanonM, Bool.and_eq_true] at h
      rw [mulCoeffL_cons, mulCoeffL_one tl h.2]
      have hparts := canonM_parts h.1
      simp only [mono_p_mk] at hparts
      rw [MonoMulCoeff]
      simp only [mono_p_mk, monoGetExp_mk]
      rw [polyMul_one p hparts.1]
termination_by ms => lsize ms
decreasing_by all_goals simp [msize_eq]; all_goals omega

end

theorem powerOf_zero_exp (x : Int) : PowerOf x 0 = 1 := by
  rw [PowerOf]
  simp

theorem powerOf_zero_base : ∀ e : Nat, ¬e = 0 → PowerOf 0 e = 0
  | e, he => by
      rw [PowerOf]
      rw [if_neg (by simpa using he)]
      by_cases h1 : e == 1
      · rw [if_pos h1]
      · rw [if_neg (by simpa using h1)]
        by_cases h2 : e % 2 == 1
        · rw [if_pos h2]
          simp
        · rw [if_neg (by simpa using h2)]
          rw [show ((0 : Int) * 0) = 0 from by simp]
          refine powerOf_zero_base (e / 2) ?_
          have hne : ¬e = 0 := by simpa using he
          have hne1 : ¬e = 1 := by simpa using h1
          omega
termination_by e => e
decreasing_by all_goals simp_all; all_goals omega

theorem monoAt_exp0 (m : Mono) (h0 : MonoGetExp m = 0)
    (hc : canonP (Mono.p m) = true) : MonoAt m 0 = Mono.p m := by
  rw [MonoAt, h0, powerOf_zero_exp, PolyFromCoeff]
  exact polyMul_one (Mono.p m) hc

theorem monoAt_pos_exp (m : Mono) (h0 : ¬MonoGetExp m = 0) :
    MonoAt m 0 = .coeff 0 := by
  rw [MonoAt, powerOf_zero_base (MonoGetExp m) h0, PolyFromCoeff]
  exact polyMul_zero_right (Mono.p m)

theorem atLoop_pos_exps : ∀ (tl : MList) (acc : Poly) (e : Int), 0 ≤ e →
    canonTail e tl = true → atLoop tl 0 acc = acc
  | .mnil, _, _, _, _ => by rw [atLoop]
  | .mcons m tl2, acc, e, he, h => by
      obtain ⟨hem, -, htl⟩ := canonTail_cons_parts h
      rw [atLoop, monoAt_pos_exp m (by omega), polyAdd_zero_right]
      exact atLoop_pos_exps tl2 acc ((MonoGetExp m : Int)) (by omega) htl

/-- The exponent-0 monomials of an array (claim C10 speaks of "p's
exponent-0 monomials"; a canonical array has at most one). -/
def filterExp0 : MList → MList
  | .mnil => .mnil
  | .mcons m t =>
      if MonoGetExp m == 0 then .mcons m (filterExp0 t) else filterExp0 t

/-- Left-fold summation of the coefficients of an array of monomials by
`PolyAdd`, starting from the zero constant. -/
def sumCoeffsAux : MList → Poly → Poly
  | .mnil, acc => acc
  | .mcons m t, acc => sumCoeffsAux t (PolyAdd acc (Mono.p m))

/-- The sum of the coefficients of the exponent-0 monomials of the array
(the value claim C10 says `PolyAt p 0` computes). -/
def sumOfConstTermCoeffs (ms : MList) : Poly :=
  sumCoeffsAux (filterExp0 ms) (PolyFromCoeff 0)

theorem filterExp0_pos : ∀ {tl : MList} {e : Int}, 0 ≤ e →
    canonTail e tl = true → filterExp0 tl = .mnil
  | .mnil, _, _, _ => by rw [filterExp0]
  | .mcons m tl2, e, he, h => by
      obtain ⟨hem, -, htl⟩ := canonTail_cons_parts h
      rw [filterExp0, if_neg (by simp; omega)]
      exact filterExp0_pos (by omega) htl

/-- Claim C10: `PowerOf x 0` is 1 for every integer base, including 0, and
consequently `PolyAt p 0` on a canonical non-constant `p` is exactly the
`PolyAdd`-sum of the coefficients of the exponent-0 monomials of `p` (the
single such coefficient, or the zero constant when there is none), all
higher-exponent monomials contributing zero. -/
theorem c10_powerOf_and_at_zero :
    (∀ x : Int, PowerOf x 0 = 1) ∧
    (∀ ms : MList, canonP (.terms ms) = true →
      PolyAt (.terms ms) 0 = sumOfConstTermCoeffs ms) := by
  refine ⟨powerOf_zero_exp, ?_⟩
  intro ms hp
  cases ms with
  | mnil => simp [canonP] at hp
  | mcons m0 tl =>
      obtain ⟨hm0, htl, -⟩ := canonP_cons_parts hp
      rw [PolyAt, atLoop]
      by_cases h0 : MonoGetExp m0 = 0
      · rw [monoAt_exp0 m0 h0 (canonM_parts hm0).1]
        rw [show PolyZero = Poly.coeff 0 from rfl, polyAdd_zero_left]
        rw [h0] at htl
        rw [atLoop_pos_exps tl (Mono.p m0) 0 (by omega) (by simpa using htl)]
        rw [sumOfConstTermCoeffs, filterExp0, if_pos (by simpa using h0),
          filterExp0_pos (e := 0) (by omega) (by simpa using htl)]
        rw [sumCoeffsAux, sumCoeffsAux, PolyFromCoeff, polyAdd_zero_left]
      · rw [monoAt_pos_exp m0 h0]
        rw [show PolyZero = Poly.coeff 0 from rfl, polyAdd_zero_left]
        have hpos : (0 : Int) ≤ (MonoGetExp m0 : Int) - 1 := by omega
        rw [atLoop_pos_exps tl (.coeff 0) ((MonoGetExp m0 : Int)) (by omega) htl]
        rw [sumOfConstTermCoeffs, filterExp0, if_neg (by simpa using h0),
          filterExp0_pos (e := (MonoGetExp m0 : Int)) (by omega) htl]
        rw [sumCoeffsAux, PolyFromCoeff]

/-- Witness for claim C10 at the canonical polynomial 3 + 2 x0^2. -/
theorem c10_witness :
    PowerOf 0 0 = 1 ∧
    PolyAt (.terms (.mcons (.mk (.coeff 3) 0)
        (.mcons (.mk (.coeff 2) 2) .mnil))) 0 =
      sumOfConstTermCoeffs (.mcons (.mk (.coeff 3) 0)
        (.mcons (.mk (.coeff 2) 2) .mnil)) :=
  ⟨c10_powerOf_and_at_zero.1 0,
    c10_powerOf_and_at_zero.2 (.mcons (.mk (.coeff 3) 0)
      (.mcons (.mk (.coeff 2) 2) .mnil)) (by decide)⟩

mutual

/-- Integer semantics of an embedded polynomial: its value under the
variable assignment `σ`, where `σ i` is the value of the variable at
nesting depth `i` relative to the polynomial (specification-side
definition, used to state claim C2). -/
def evalP : Poly → (Nat → Int) → Int
  | .coeff c, _ => c
  | .terms ms, σ => evalL ms σ

/-- Sum of the values of the monomials of an array. -/
def evalL : MList → (Nat → Int) → Int
  | .mnil, _ => 0
  | .mcons m ms, σ => evalM m σ + evalL ms σ

/-- Value of one monomial: coefficient value one nesting level deeper,
times the outermost variable raised to the exponent. -/
def evalM : Mono → (Nat → Int) → Int
  | .mk p e, σ => evalP p (fun i => σ (i + 1)) * σ 0 ^ e

end

@[simp] theorem evalP_coeff (c : Int) (σ : Nat → Int) :
    evalP (.coeff c) σ = c := by rw [evalP]

@[simp] theorem evalP_terms (ms : MList) (σ : Nat → Int) :
    evalP (.terms ms) σ = evalL ms σ := by rw [evalP]

@[simp] theorem evalL_nil (σ : Nat → Int) : evalL .mnil σ = 0 := by rw [evalL]

@[simp] theorem evalL_cons (m : Mono) (ms : MList) (σ : Nat → Int) :
    evalL (.mcons m ms) σ = evalM m σ + evalL ms σ := by rw [evalL]

@[simp] theorem evalM_mk (p : Poly) (e : Nat) (σ : Nat → Int) :
    evalM (.mk p e) σ = evalP p (fun i => σ (i + 1)) * σ 0 ^ e := by rw [evalM]

theorem evalM_eq (m : Mono) (σ : Nat → Int) :
    evalM m σ = evalP (Mono.p m) (fun i => σ (i + 1)) * σ 0 ^ MonoGetExp m := by
  cases m
  simp

theorem evalP_trim : ∀ (l : MList) (σ : Nat → Int),
    evalP (TrimAndInterpretMonoArr l) σ = evalL l σ
  | .mnil, σ => by simp [TrimAndInterpretMonoArr, PolyZero, PolyFromCoeff]
  | .mcons m .mnil, σ => by
      rw [TrimAndInterpretMonoArr]
      by_cases hz : PolyIsZero (Mono.p m) = true
      · rw [if_pos hz]
        have hm := polyIsZero_eq_true hz
        simp only [evalL_cons, evalL_nil, evalM_eq, hm]
        simp [PolyZero, PolyFromCoeff]
      · rw [if_neg hz]
        by_cases hf : (MonoGetExp m == 0 && PolyIsCoeff (Mono.p m)) = true
        · rw [if_pos hf]
          simp only [Bool.and_eq_true, beq_iff_eq] at hf
          cases hp : Mono.p m with
          | coeff c =>
              simp only [evalL_cons, evalL_nil, evalM_eq, hf.1, hp]
              simp
          | terms ms =>
              rw [hp] at hf
              simp [PolyIsCoeff] at hf
        · rw [if_neg hf]
          simp [PolyFromSizeAndArray]
  | .mcons m (.mcons n t), σ => by
      simp [TrimAndInterpretMonoArr, PolyFromSizeAndArray]

mutual

theorem eval_add : ∀ (p q : Poly) (σ : Nat → Int), canonP p = true →
    canonP q = true → evalP (PolyAdd p q) σ = evalP p σ + evalP q σ
  | .coeff a, .coeff b, σ, _, _ => by
      rw [polyAdd_cc]
      simp
  | .terms ms, .coeff c, σ, hp, _ => by
      rw [polyAdd_tc, eval_addCTN ms c σ hp]
      simp
  | .coeff c, .terms ns, σ, _, hq => by
      rw [polyAdd_ct, eval_addCTN ns c σ hq]
      simp
      ring
  | .terms ms, .terms ns, σ, hp, hq => by
      rw [polyAdd_tt, evalP_trim, eval_merge ms ns σ
        (canonP_terms_allCanonM ms hp) (canonP_terms_allCanonM ns hq)]
      simp
termination_by p q σ => psize p + psize q
decreasing_by all_goals simp [msize_eq]; all_goals omega

theorem eval_addCTN : ∀ (ms : MList) (c : Int) (σ : Nat → Int),
    canonP (.terms ms) = true →
    evalP (PolyAddCoeffToNonCoeff (.terms ms) (.coeff c)) σ = evalL ms σ + c
  | .mnil, c, σ, hp => by simp [canonP] at hp
  | .mcons (.mk p0 e0) tl, c, σ, hp => by
      by_cases hc : c = 0
      · subst hc
        rw [addCTN_zero]
        simp
      · obtain ⟨hm0, htl, hsing⟩ := canonP_cons_parts hp
        have hp0 : canonP p0 = true := by
          simpa using (canonM_parts hm0).1
        by_cases h0 : MonoGetExp (Mono.mk p0 e0) = 0
        · rw [addCTN_phc _ tl c hc h0]
          simp only [monoGetExp_mk] at h0
          subst h0
          have hadd := eval_add p0 (.coeff c) (fun i => σ (i + 1)) hp0 (by simp)
          simp only [mono_p_mk]
          by_cases hz : PolyIsZero (PolyAdd p0 (.coeff c)) = true
          · rw [if_pos hz, cloneL_eq]
            have h00 := polyIsZero_eq_true hz
            rw [h00] at hadd
            simp only [evalP_coeff] at hadd
            simp only [evalP_terms, evalL_cons, evalM_mk, pow_zero, mul_one]
            omega
          · rw [if_neg hz, cloneL_eq]
            simp only [evalP_terms, evalL_cons, evalM_mk, pow_zero, mul_one,
              hadd, evalP_coeff]
            ring
        · rw [addCTN_pdhc _ tl c hc h0, cloneL_eq]
          simp only [MonoFromPoly, evalP_terms, evalL_cons, evalM_mk,
            pow_zero, mul_one, evalP_coeff]
          ring
termination_by ms c σ => lsize ms + 1
decreasing_by all_goals simp [msize_eq]; all_goals omega

theorem eval_merge : ∀ (ms ns : MList) (σ : Nat → Int), allCanonM ms = true →
    allCanonM ns = true → evalL (mergeAdd ms ns) σ = evalL ms σ + evalL ns σ
  | .mnil, ns, σ, _, _ => by
      rw [mergeAdd_nil_left]
      simp
  | .mcons m ms1, .mnil, σ, _, _ => by
      rw [mergeAdd_nil_right]
      simp
  | .mcons m ms1, .mcons n ns1, σ, hm, hn => by
      simp only [allCanonM, Bool.and_eq_true] at hm hn
      rw [mergeAdd_cons_cons]
      have hadd := eval_add (Mono.p m) (Mono.p n) (fun i => σ (i + 1))
        (canonM_parts hm.1).1 (canonM_parts hn.1).1
      by_cases hexp : MonoGetExp m = MonoGetExp n
      · rw [if_pos hexp]
        by_cases hz : PolyIsZero (PolyAdd (Mono.p m) (Mono.p n)) = true
        · rw [if_pos hz]
          have h00 := polyIsZero_eq_true hz
          rw [h00] at hadd
          simp only [evalP_coeff] at hadd
          have hsum : evalP (Mono.p m) (fun i => σ (i + 1)) +
              evalP (Mono.p n) (fun i => σ (i + 1)) = 0 := by omega
          rw [eval_merge ms1 ns1 σ hm.2 hn.2]
          simp only [evalL_cons, evalM_eq, hexp]
          have hx : evalP (Mono.p m) (fun i => σ (i + 1)) *
                σ 0 ^ MonoGetExp n +
              evalP (Mono.p n) (fun i => σ (i + 1)) * σ 0 ^ MonoGetExp n = 0 := by
            rw [← add_mul, hsum, zero_mul]
          omega
        · rw [if_neg hz]
          rw [evalL_cons, eval_merge ms1 ns1 σ hm.2 hn.2, evalM_eq (MonoAdd m n),
            monoAdd_p, monoAdd_exp, hadd]
          simp only [evalL_cons, evalM_eq, hexp]
          ring
      · rw [if_neg hexp]
        by_cases hgt : MonoGetExp m > MonoGetExp n
        · rw [if_pos hgt, evalL_cons, eval_merge (.mcons m ms1) ns1 σ
            (by simp [allCanonM, hm.1, hm.2]) hn.2]
          simp only [evalL_cons]
          ring
        · rw [if_neg hgt, evalL_cons, eval_merge ms1 (.mcons n ns1) σ hm.2
            (by simp [allCanonM, hn.1, hn.2])]
          simp only [evalL_cons]
          ring
termination_by ms ns σ => lsize ms + lsize ns
decreasing_by all_goals simp [msize_eq]; all_goals omega

end

theorem evalL_sortInsert : ∀ (l : MList) (m : Mono) (σ : Nat → Int),
    evalL (sortInsert m l) σ = evalM m σ + evalL l σ
  | .mnil, m, σ => by simp [sortInsert]
  | .mcons n ns, m, σ => by
      rw [sortInsert]
      by_cases hle : MonoGetExp m ≤ MonoGetExp n
      · rw [if_pos hle]
        simp
      · rw [if_neg hle]
        simp [evalL_sortInsert ns m σ]
        ring

theorem evalL_sort : ∀ (l : MList) (σ : Nat → Int),
    evalL (MonoSort l) σ = evalL l σ
  | .mnil, σ => by rw [MonoSort]
  | .mcons m t, σ => by
      rw [MonoSort, evalL_sortInsert, evalL_sort t σ, evalL_cons]

theorem sortInsert_ne_mnil : ∀ (l : MList) (m : Mono),
    sortInsert m l ≠ .mnil
  | .mnil, m => by
      rw [sortInsert]
      intro hc
      cases hc
  | .mcons n ns, m => by
      rw [sortInsert]
      split
      · intro hc
        cases hc
      · intro hc
        cases hc

theorem eval_addMonosLoop : ∀ (rest : MList) (cur : Mono) (σ : Nat → Int),
    canonP (Mono.p cur) = true → allCanonM rest = true →
    evalL (addMonosLoop cur rest) σ = evalM cur σ + evalL rest σ
  | .mnil, cur, σ, _, _ => by
      rw [addMonosLoop]
      simp
  | .mcons m ms, cur, σ, hcur, hall => by
      simp only [allCanonM, Bool.and_eq_true] at hall
      rw [addMonosLoop]
      by_cases hexp : MonoGetExp cur = MonoGetExp m
      · rw [if_pos (by simpa using hexp)]
        rw [eval_addMonosLoop ms (MonoAdd cur m) σ
          (by simpa using canon_add _ _ hcur (canonM_parts hall.1).1) hall.2]
        rw [evalM_eq (MonoAdd cur m), monoAdd_p, monoAdd_exp,
          eval_add (Mono.p cur) (Mono.p m) _ hcur (canonM_parts hall.1).1]
        rw [evalL_cons, evalM_eq cur, evalM_eq m, hexp]
        ring
      · rw [if_neg (by simpa using hexp), monoClone_eq]
        by_cases hz : PolyIsZero (Mono.p cur) = true
        · rw [if_pos hz]
          rw [eval_addMonosLoop ms m σ (canonM_parts hall.1).1 hall.2]
          have h00 := polyIsZero_eq_true hz
          rw [evalM_eq cur, h00]
          simp
        · rw [if_neg hz, evalL_cons,
            eval_addMonosLoop ms m σ (canonM_parts hall.1).1 hall.2]
          simp

theorem mlength_cons_ne_zero (m : Mono) (t : MList) :
    (mlength (.mcons m t) == 0) = false := by
  rw [mlength]
  simp

theorem eval_polyAddMonos : ∀ (l : MList) (σ : Nat → Int),
    allCanonM l = true → evalP (PolyAddMonos (mlength l) l) σ = evalL l σ
  | .mnil, σ, _ => by
      rw [PolyAddMonos]
      simp [mlength, PolyZero, PolyFromCoeff]
  | .mcons m t, σ, hall => by
      rw [PolyAddMonos, mlength_cons_ne_zero]
      rw [if_neg (by simp)]
      rw [mtake_mlength]
      have hallS := allCanonM_sort hall
      cases hs : MonoSort (.mcons m t) with
      | mnil =>
          rw [MonoSort] at hs
          exact absurd hs (sortInsert_ne_mnil _ m)
      | mcons m0 rest =>
          rw [hs] at hallS
          simp only [allCanonM, Bool.and_eq_true] at hallS
          rw [evalP_trim, eval_addMonosLoop rest m0 σ
            (canonM_parts hallS.1).1 hallS.2]
          have := evalL_sort (.mcons m t) σ
          rw [hs, evalL_cons] at this
          rw [this]

theorem evalL_append : ∀ (a b : MList) (σ : Nat → Int),
    evalL (mappend a b) σ = evalL a σ + evalL b σ
  | .mnil, b, σ => by simp [mappend]
  | .mcons m t, b, σ => by
      rw [mappend, evalL_cons, evalL_cons, evalL_append t b σ]
      ring

mutual

theorem eval_mul : ∀ (p q : Poly) (σ : Nat → Int), canonP p = true →
    canonP q = true → evalP (PolyMul p q) σ = evalP p σ * evalP q σ
  | .coeff a, .coeff b, σ, _, _ => by
      rw [polyMul_cc]
      simp [mul_comm]
  | .coeff a, .terms ns, σ, _, hq => by
      rw [polyMul_ct, eval_mulCNC ns a σ hq]
      simp [mul_comm]
  | .terms ms, .coeff b, σ, hp, _ => by
      rw [polyMul_tc, eval_mulCNC ms b σ hp]
      simp
  | .terms ms, .terms ns, σ, hp, hq => by
      rw [polyMul_tt]
      rw [eval_polyAddMonos _ σ (canon_crossAll ms ns
        (canonP_terms_allCanonM ms hp) (canonP_terms_allCanonM ns hq))]
      rw [eval_crossAll ms ns σ (canonP_terms_allCanonM ms hp)
        (canonP_terms_allCanonM ns hq)]
      simp
termination_by p q σ => psize p + psize q
decreasing_by all_goals simp [msize_eq]; all_goals omega

theorem eval_mulCNC : ∀ (ms : MList) (c : Int) (σ : Nat → Int),
    canonP (.terms ms) = true →
    evalP (PolyMulCoeffAndNonCoeff (.terms ms) (.coeff c)) σ =
      evalL ms σ * c
  | ms, c, σ, hp => by
      by_cases hc : c = 0
      · subst hc
        rw [mulCNC_zero]
        simp [PolyZero, PolyFromCoeff]
      · rw [mulCNC_nonzero ms hc]
        rw [eval_polyAddMonos _ σ (canonTail_allCanonM (-1)
          (mulCoeffL ms (.coeff c))
          (canon_mulCoeffL (-1) ms c hc (canonP_terms_canonTail hp)))]
        exact eval_mulCoeffL ms c σ (canonP_terms_allCanonM ms hp)
termination_by ms c σ => lsize ms + 1
decreasing_by all_goals simp [msize_eq]; all_goals omega

theorem eval_mulCoeffL : ∀ (ms : MList) (c : Int) (σ : Nat → Int),
    allCanonM ms = true →
    evalL (mulCoeffL ms (.coeff c)) σ = evalL ms σ * c
  | .mnil, c, σ, _ => by
      rw [mulCoeffL_nil]
      simp
  | .mcons m tl, c, σ, hall => by
      simp only [allCanonM, Bool.and_eq_true] at hall
      rw [mulCoeffL_cons, evalL_cons, evalM_eq (MonoMulCoeff m (.coeff c)),
        monoMulCoeff_p, monoMulCoeff_exp,
        eval_mul (Mono.p m) (.coeff c) _ (canonM_parts hall.1).1 (by simp),
        eval_mulCoeffL tl c σ hall.2, evalL_cons, evalM_eq m, evalP_coeff]
      ring
termination_by ms c σ => lsize ms
decreasing_by all_goals simp [msize_eq]; all_goals omega

theorem eval_crossAll : ∀ (ms ns : MList) (σ : Nat → Int),
    allCanonM ms = true → allCanonM ns = true →
    evalL (crossAll ms ns) σ = evalL ms σ * evalL ns σ
  | .mnil, ns, σ, _, _ => by
      rw [crossAll_nil]
      simp
  | .mcons m ms2, ns, σ, hm, hn => by
      simp only [allCanonM, Bool.and_eq_true] at hm
      rw [crossAll_cons, evalL_append, eval_crossOne m ns σ hm.1 hn,
        eval_crossAll ms2 ns σ hm.2 hn, evalL_cons]
      ring
termination_by ms ns σ => lsize ms + lsize ns
decreasing_by all_goals simp [msize_eq]; all_goals omega

theorem eval_crossOne : ∀ (m : Mono) (ns : MList) (σ : Nat → Int),
    canonM m = true → allCanonM ns = true →
    evalL (crossOne m ns) σ = evalM m σ * evalL ns σ
  | m, .mnil, σ, _, _ => by
      rw [crossOne_nil]
      simp
  | m, .mcons n ns2, σ, hm, hn => by
      simp only [allCanonM, Bool.and_eq_true] at hn
      rw [crossOne_cons, evalL_cons, evalM_eq (MonoMul m n), monoMul_p,
        monoMul_exp,
        eval_mul (Mono.p m) (Mono.p n) _ (canonM_parts hm).1
          (canonM_parts hn.1).1,
        eval_crossOne m ns2 σ hm hn.2, evalL_cons, evalM_eq m, evalM_eq n,
        pow_add]
      ring
termination_by m ns σ => msize m + lsize ns
decreasing_by all_goals simp [msize_eq]; all_goals omega

end

theorem eval_power : ∀ (n : Nat) (p : Poly) (σ : Nat → Int),
    canonP p = true → evalP (PolyPower p n) σ = evalP p σ ^ n
  | n, p, σ, hp => by
      rw [PolyPower]
      by_cases h0 : n == 0
      · rw [if_pos h0]
        have : n = 0 := by simpa using h0
        subst this
        simp [PolyFromCoeff]
      · rw [if_neg (by simpa using h0)]
        by_cases h1 : n == 1
        · rw [if_pos h1, polyClone_eq]
          have : n = 1 := by simpa using h1
          subst this
          simp
        · rw [if_neg (by simpa using h1)]
          have hn0 : ¬n = 0 := by simpa using h0
          have hn1 : ¬n = 1 := by simpa using h1
          have hmul := (canon_mul p p hp hp).1
          have hev2 : evalP (PolyMul p p) σ = evalP p σ ^ 2 := by
            rw [eval_mul p p σ hp hp]
            ring
          by_cases h2 : n % 2 == 1
          · rw [if_pos h2]
            rw [eval_mul p _ σ hp
              (canon_power ((n - 1) / 2) (PolyMul p p) hmul)]
            rw [eval_power ((n - 1) / 2) (PolyMul p p) σ hmul, hev2,
              ← pow_mul, ← pow_succ']
            have hodd : n % 2 = 1 := by simpa using h2
            have : 2 * ((n - 1) / 2) + 1 = n := by omega
            rw [this]
          · rw [if_neg (by simpa using h2)]
            rw [eval_power (n / 2) (PolyMul p p) σ hmul, hev2, ← pow_mul]
            have heven : ¬n % 2 = 1 := by simpa using h2
            have : 2 * (n / 2) = n := by omega
            rw [this]
termination_by n p σ => n
decreasing_by all_goals simp_all; all_goals omega

theorem composeShift (k v : Nat) (qs : List Poly) (σ : Nat → Int) :
    (fun i => if v + (i + 1) < k then
        evalP (qs.getD (v + (i + 1)) PolyZero) σ else 0) =
    (fun i => if (v + 1) + i < k then
        evalP (qs.getD ((v + 1) + i) PolyZero) σ else 0) := by
  funext i
  have h : v + (i + 1) = (v + 1) + i := by omega
  rw [h]

mutual

theorem eval_composeHelper : ∀ (p : Poly) (k v : Nat) (qs : List Poly)
    (σ : Nat → Int), canonP p = true → (∀ r ∈ qs, canonP r = true) →
    evalP (PolyComposeHelper p k v qs) σ =
      evalP p (fun i => if v + i < k then
        evalP (qs.getD (v + i) PolyZero) σ else 0)
  | .coeff c, k, v, qs, σ, _, _ => by
      rw [PolyComposeHelper, polyClone_eq]
      simp
  | .terms ms, k, v, qs, σ, hp, hqs => by
      rw [PolyComposeHelper]
      rw [eval_composeL ms k v qs PolyZero σ (canonP_terms_allCanonM ms hp)
        hqs (by simp [PolyZero, PolyFromCoeff])]
      simp [PolyZero, PolyFromCoeff]
termination_by p k v qs σ => psize p
decreasing_by all_goals simp [msize_eq]; all_goals omega

theorem eval_composeL : ∀ (ms : MList) (k v : Nat) (qs : List Poly)
    (acc : Poly) (σ : Nat → Int), allCanonM ms = true →
    (∀ r ∈ qs, canonP r = true) → canonP acc = true →
    evalP (composeL ms k v qs acc) σ =
      evalP acc σ + evalL ms (fun i => if v + i < k then
        evalP (qs.getD (v + i) PolyZero) σ else 0)
  | .mnil, k, v, qs, acc, σ, _, _, _ => by
      rw [composeL]
      simp
  | .mcons m tl, k, v, qs, acc, σ, hm, hqs, hacc => by
      simp only [allCanonM, Bool.and_eq_true] at hm
      have hmono := canon_monoCompose m k v qs hm.1 hqs
      rw [composeL]
      rw [eval_composeL tl k v qs _ σ hm.2 hqs (canon_add acc _ hacc hmono)]
      rw [eval_add acc _ σ hacc hmono]
      rw [eval_monoCompose m k v qs σ hm.1 hqs, evalL_cons]
      ring
termination_by ms k v qs acc σ => lsize ms
decreasing_by all_goals simp [msize_eq]; all_goals omega

theorem eval_monoCompose : ∀ (m : Mono) (k v : Nat) (qs : List Poly)
    (σ : Nat → Int), canonM m = true → (∀ r ∈ qs, canonP r = true) →
    evalP (MonoComposeHelper m k v qs) σ =
      evalM m (fun i => if v + i < k then
        evalP (qs.getD (v + i) PolyZero) σ else 0)
  | m, k, v, qs, σ, hm, hqs => by
      rw [MonoComposeHelper]
      have hcoeff := eval_composeHelper (Mono.p m) k (v + 1) qs σ
        (canonM_parts hm).1 hqs
      by_cases h0 : MonoGetExp m == 0
      · rw [if_pos h0]
        have he : MonoGetExp m = 0 := by simpa using h0
        rw [hcoeff]
        simp only [evalM_eq, he, pow_zero, mul_one]
        rw [composeShift]
      · rw [if_neg (by simpa using h0)]
        have he : ¬MonoGetExp m = 0 := by simpa using h0
        by_cases hk : v < k
        · rw [if_pos hk]
          rw [eval_mul _ _ σ (canon_composeHelper (Mono.p m) k (v + 1) qs
            (canonM_parts hm).1 hqs)
            (canon_power (MonoGetExp m) _ (canonP_getD qs v hqs))]
          rw [hcoeff, eval_power (MonoGetExp m) _ σ (canonP_getD qs v hqs)]
          simp only [evalM_eq, Nat.add_zero, if_pos hk]
          rw [composeShift]
        · rw [if_neg hk]
          simp only [evalM_eq, Nat.add_zero, if_neg hk, zero_pow he,
            mul_zero, PolyZero, PolyFromCoeff, evalP_coeff]
termination_by m k v qs σ => msize m
decreasing_by all_goals simp [msize_eq]; all_goals omega

end

/-- C2: for every canonical polynomial `p`, every `k`, and every array `qs`
of `k` canonical polynomials, `PolyCompose p k qs` is the polynomial obtained
from `p` by substituting `qs[i]` for variable `x_i` when `i < k` and the zero
polynomial for every variable `x_i` with `i ≥ k` (so for `k = 0` every
variable is replaced by zero): under every assignment `σ`, its value equals
the value of `p` at the substituted assignment. -/
theorem c2_compose_substitutes (p : Poly) (k : Nat) (qs : List Poly)
    (σ : Nat → Int) (hp : canonP p = true) (hk : k = qs.length)
    (hqs : ∀ r ∈ qs, canonP r = true) :
    evalP (PolyCompose p k qs) σ =
      evalP p (fun i => if i < k then
        evalP (qs.getD i PolyZero) σ else 0) := by
  rw [PolyCompose, eval_composeHelper p k 0 qs σ hp hqs]
  congr 1
  funext i
  simp

theorem c2_witness :
    evalP (PolyCompose (Poly.terms (.mcons (.mk (.coeff 2) 1) .mnil)) 1
        [Poly.coeff 7]) (fun _ => 0) =
      evalP (Poly.terms (.mcons (.mk (.coeff 2) 1) .mnil))
        (fun i => if i < 1 then
          evalP ([Poly.coeff 7].getD i PolyZero) (fun _ => 0) else 0) :=
  c2_compose_substitutes (Poly.terms (.mcons (.mk (.coeff 2) 1) .mnil)) 1
    [Poly.coeff 7] (fun _ => 0) (by decide) (by decide) (by decide)

end PolyCalc
